import Mathlib

/- Verification of the deepseek-timeline extension core (src/extension/content.js):
the identity index (fingerprint map), the geometry min-gap solver, the
virtualization window, the active-marker anti-flicker logic and the tooltip
placement engine, shallowly embedded over exact rational arithmetic.  JS
numbers are modelled as rationals; every arithmetic step below stays well
inside the exactly-representable range of IEEE doubles on the inputs the
theorems quantify over, except where a comment notes the 32-bit wraparound
that the source forces explicitly. -/

/- ===== Identity Index (content.js lines 491-626) ===== -/

/-- One step of the JS string hash loop, content.js line 623:
`hash = (hash * 31 + str.charCodeAt(i)) >>> 0`.  For `hash < 2^32` the product
stays below `2^53`, so the float computation is exact and `>>> 0` is reduction
mod `2^32`.  `Char.toNat` agrees with `charCodeAt` on ASCII input. -/
def hashStep (h : Nat) (c : Char) : Nat := (h * 31 + c.toNat) % 4294967296

/-- Digit characters used by JS `Number.prototype.toString(36)`: 0-9 then a-z. -/
def base36Char (d : Nat) : Char :=
  if d < 10 then Char.ofNat (48 + d) else Char.ofNat (87 + d)

/-- Base-36 digit expansion, most significant digit first, as produced by JS
`n.toString(36)` for integral `n`.  The first argument is recursion fuel;
`n + 1` steps always suffice because `n / 36 < n` for `n ≥ 36`. -/
def toBase36Aux : Nat → Nat → List Char
  | 0, _ => []
  | fuel + 1, n =>
    if n < 36 then [base36Char n]
    else toBase36Aux fuel (n / 36) ++ [base36Char (n % 36)]

/-- JS `n.toString(36)` for a natural number. -/
def toBase36 (n : Nat) : String := String.mk (toBase36Aux (n + 1) n)

/-- `hashString` (content.js lines 619-626): 32-bit rolling hash of the string,
rendered in base 36. -/
def hashString (s : String) : String := toBase36 (s.data.foldl hashStep 0)

/-- The map `this.fingerprintToTurnId` is a JS `Map`, modelled as an
insertion-ordered list of key-value pairs, oldest first. -/
abbrev FpMap := List (String × String)

/-- `Map.get`: the value bound to the key (keys are unique in a JS `Map`). -/
def mapGet (m : FpMap) (k : String) : Option String :=
  (m.find? (fun e => e.1 = k)).map (fun e => e.2)

/-- `Map.set`: overwrite the value of an existing key in place (keeping its
insertion position), else append a fresh entry at the end. -/
def mapSet (m : FpMap) (k v : String) : FpMap :=
  if m.any (fun e => e.1 = k) then m.map (fun e => if e.1 = k then (k, v) else e)
  else m ++ [(k, v)]

/-- `this.fingerprintMapLimit` (content.js line 90). -/
def fingerprintMapLimit : Nat := 1200

/-- `isTurnIdTaken` (content.js lines 491-497): the id is bound to some other
fingerprint.  `if (!id) return false` is the empty-string/null check. -/
def isTurnIdTaken (m : FpMap) (turnId fingerprint : String) : Bool :=
  if turnId = "" then false
  else m.any (fun e => e.2 = turnId ∧ e.1 ≠ fingerprint)

/-- The eviction loop of `trimFingerprintMapIfNeeded` (content.js lines 503-508):
delete the first key of the map `count` times (stopping early on an empty map,
the `oldest.done` guard). -/
def evictOldest : Nat → FpMap → FpMap
  | 0, m => m
  | k + 1, m =>
    match m with
    | [] => m
    | _ :: rest => evictOldest k rest

/-- `trimFingerprintMapIfNeeded` (content.js lines 499-510). -/
def trimFingerprintMapIfNeeded (m : FpMap) : FpMap :=
  if m.length < fingerprintMapLimit then m
  else evictOldest (m.length - fingerprintMapLimit + 1) m

/-- The candidate id tried at a given retry suffix (content.js lines 598-599):
`ds-turn-${baseHash}-${hashString(fingerprint + "|" + suffix).slice(0, 4)}`. -/
def suffixCandidate (fingerprint baseHash : String) (suffix : Nat) : String :=
  "ds-turn-" ++ baseHash ++ "-" ++ (hashString (fingerprint ++ "|" ++ toString suffix)).take 4

/-- The collision retry loop `while (suffix < 10) ...` of `ensureMessageId`
(content.js lines 596-602), by recursion on `remaining = 10 - suffix`; the
initial call has suffix 1 and remaining 9.  With one iteration remaining the
loop computes its candidate and exits whether or not that candidate is taken,
exactly as the JS loop does when `suffix` reaches 9; the value of the loop is
the last candidate computed. -/
def retryLoop (m : FpMap) (fingerprint baseHash : String) : Nat → Nat → String
  | 0, suffix => suffixCandidate fingerprint baseHash suffix
  | 1, suffix => suffixCandidate fingerprint baseHash suffix
  | remaining + 2, suffix =>
    let c := suffixCandidate fingerprint baseHash suffix
    if isTurnIdTaken m c fingerprint then
      retryLoop m fingerprint baseHash (remaining + 1) (suffix + 1)
    else c

/-- The fingerprint-resolution core of `ensureMessageId` (content.js lines
588-616), reached when the element exposes no durable id attribute and is not
in the per-element WeakMap cache (both earlier paths are environment-supplied
and trivially return a fixed stored value).  The JS hit test is
`if (!id)` on the `Map.get` result, so a missing entry and a stored empty
string (the only falsy string) both take the regeneration path; `getD ""`
models `undefined` and `""` collapsing to the same falsy check.  On that path
the candidate is the base-36 hash of the fingerprint, with the collision retry
loop and the `Date.now()`-derived fallback (`now`); the map is trimmed before
insertion (`Map.set` overwrites in place if the key is present). -/
def ensureMessageId (m : FpMap) (fingerprint : String) (now : Nat) : String × FpMap :=
  let stored := (mapGet m fingerprint).getD ""
  if stored = "" then
    let baseHash := hashString fingerprint
    let firstCandidate := "ds-turn-" ++ baseHash
    let candidate :=
      if isTurnIdTaken m firstCandidate fingerprint then
        let c := retryLoop m fingerprint baseHash 9 1
        if isTurnIdTaken m c fingerprint then "ds-turn-" ++ baseHash ++ "-" ++ toBase36 now
        else c
      else firstCandidate
    (candidate, mapSet (trimFingerprintMapIfNeeded m) fingerprint candidate)
  else (stored, m)

/-- `loadMessageIdMap` (content.js lines 512-537): seed the in-memory map from
the persisted array of pairs via repeated `Map.set`.  The JSON parsing and the
string-type filters are environment concerns; entries arriving here are the
surviving string pairs, in array order. -/
def loadMessageIdMap (persisted : List (String × String)) : FpMap :=
  persisted.foldl (fun m e => mapSet m e.1 e.2) []

/-- `persistFingerprintMap` (content.js lines 539-552): write out the entries,
splicing away the oldest ones when over the limit. -/
def persistFingerprintMap (m : FpMap) : List (String × String) :=
  if fingerprintMapLimit < m.length then m.drop (m.length - fingerprintMapLimit) else m

/- ===== Geometry model: min-gap solver (content.js lines 1197-1229, 1393-1418) ===== -/

/-- Forward pass of `applyMinGap` (content.js lines 1203-1206): each output is
the input raised to at least `gap` above the previous output. -/
def fwdFrom (prev gap : ℚ) : List ℚ → List ℚ
  | [] => []
  | p :: ps =>
    let v := max p (prev + gap)
    v :: fwdFrom v gap ps

/-- Backward pass of `applyMinGap` (content.js lines 1210-1213), expressed on
the reversed prefix: each output is the input lowered to at least `gap` below
the previous output. -/
def bwdFrom (next gap : ℚ) : List ℚ → List ℚ
  | [] => []
  | p :: ps =>
    let v := min p (next - gap)
    v :: bwdFrom v gap ps

/-- The final clamp of `applyMinGap` (content.js lines 1224-1227): the two
sequential `if` statements, in order. -/
def finalClamp (minTop maxTop x : ℚ) : ℚ :=
  let x1 := if x < minTop then minTop else x
  if maxTop < x1 then maxTop else x1

/-- The conditional backward stage of `applyMinGap` (content.js lines
1207-1222), applied to the output `fwd` of the forward pass: only when the last
forward output overflows `maxTop`, pin the last element to `maxTop`, run the
backward pass over the remaining elements (represented here on the reversed
prefix), and re-run a forward correction if the first element then fell under
`minTop`. -/
def backwardFix (fwd : List ℚ) (minTop maxTop gap : ℚ) : List ℚ :=
  if maxTop < fwd.getLastD 0 then
    let bwd := (maxTop :: bwdFrom maxTop gap fwd.dropLast.reverse).reverse
    match bwd with
    | [] => ([] : List ℚ)
    | q0 :: qrest => if q0 < minTop then minTop :: fwdFrom minTop gap qrest else bwd
  else fwd

/-- `applyMinGap` (content.js lines 1197-1229).  Stage 1 clamps the first
element into `[minTop, maxTop]` and runs the forward pass; stage 2 is the
conditional backward fix; stage 3 clamps every element into bounds. -/
def applyMinGap (positions : List ℚ) (minTop maxTop gap : ℚ) : List ℚ :=
  match positions with
  | [] => []
  | p0 :: rest =>
    let y0 := max minTop (min p0 maxTop)
    (backwardFix (y0 :: fwdFrom y0 gap rest) minTop maxTop gap).map (finalClamp minTop maxTop)

/-- The content height chosen by `updateTimelineGeometry` (content.js lines
1399-1401): `Math.ceil(Math.max(H, N > 0 ? 2*pad + Math.max(0, N-1)*minGap : H))`. -/
def contentHeightOf (N : Nat) (H pad minGap : ℚ) : ℚ :=
  ((⌈max H (if 0 < N then 2 * pad + ((N - 1 : ℕ) : ℚ) * minGap else H)⌉ : ℤ) : ℚ)

/-- The usable track length `usableC` (content.js line 1406). -/
def usableCOf (N : Nat) (H pad minGap : ℚ) : ℚ :=
  max 1 (contentHeightOf N H pad minGap - 2 * pad)

/-- The y-position computation of `updateTimelineGeometry` (content.js lines
1393-1409): desired pixel positions from the clamped normalized offsets, then
the min-gap solver.  `baseNs` is `markers.map(m => m.baseN)`; `H` is the bar
client height. -/
def updateTimelineGeometry (baseNs : List ℚ) (H pad minGap : ℚ) : List ℚ :=
  let usableC := usableCOf baseNs.length H pad minGap
  let desiredY := baseNs.map (fun b => pad + max 0 (min 1 b) * usableC)
  applyMinGap desiredY pad (pad + usableC) minGap

/- ===== Virtualization window (content.js lines 1470-1561) ===== -/

/-- Shared loop shape of `lowerBound` and `upperBound` (content.js lines
1545-1561): the two JS functions are the identical binary-search loop differing
only in the comparison against `x`, passed here as `p`.  `(lo + hi) >> 1` is
Nat division by two.  The first argument is recursion fuel; `hi - lo` shrinks
every iteration, so `arr.length + 1` always suffices. -/
def bsearchLoop (arr : List ℚ) (p : ℚ → Bool) : Nat → Nat → Nat → Nat
  | 0, lo, _ => lo
  | fuel + 1, lo, hi =>
    if lo < hi then
      let mid := (lo + hi) / 2
      if p (arr.getD mid 0) then bsearchLoop arr p fuel (mid + 1) hi
      else bsearchLoop arr p fuel lo mid
    else lo

/-- `lowerBound` (content.js lines 1545-1552): first index with `arr[i] ≥ x`
(i.e. first failure of `arr[mid] < x`), or `arr.length`. -/
def lowerBound (arr : List ℚ) (x : ℚ) : Nat :=
  bsearchLoop arr (fun v => v < x) (arr.length + 1) 0 arr.length

/-- `upperBound` (content.js lines 1554-1561): last index with `arr[i] ≤ x`,
or `-1` when there is none (`lo - 1`). -/
def upperBound (arr : List ℚ) (x : ℚ) : Int :=
  (bsearchLoop arr (fun v => v ≤ x) (arr.length + 1) 0 arr.length : Int) - 1

/-- The virtual range computed by `updateVirtualRangeAndRender` (content.js
lines 1473-1479): buffered band, then
`start = lowerBound(yPositions, st - buffer)` and
`end = Math.max(start - 1, upperBound(yPositions, st + vh + buffer))`. -/
def virtualRange (y : List ℚ) (st vh : ℚ) : Nat × Int :=
  let buffer := max 100 vh
  let minY := st - buffer
  let maxY := st + vh + buffer
  let start := lowerBound y minY
  (start, max ((start : Int) - 1) (upperBound y maxY))

/-- A marker as the render pass sees it: identity fields plus whether it
currently owns a visual binding (`dotElement !== null`). -/
structure Marker where
  turnId : String
  n : ℚ
  starred : Bool
  dotElement : Bool
deriving DecidableEq

/-- The shared mutable state read and written by `updateVirtualRangeAndRender`. -/
structure RenderState where
  markers : List Marker
  yPositions : List ℚ
  visibleRange : Int × Int
deriving DecidableEq

/-- One indexed pass over the markers array, applying `f i m` to the marker at
index `i` (counting from the second argument).  The JS `for` loops over index
ranges of `this.markers` are expressed as one such pass with the loop range
condition inside `f`. -/
def mapWithIndex (f : Int → Marker → Marker) : Int → List Marker → List Marker
  | _, [] => []
  | i, m :: ms => f i m :: mapWithIndex f (i + 1) ms

/-- `updateVirtualRangeAndRender` (content.js lines 1470-1543).  `st` and `vh`
are the track scroll offset and client height; `localVersion` is the version
captured on entry (line 1471) and `liveVersion` the value of
`this.markersVersion` at the version check (line 1538) - the spec allows the
two to differ for a stale interleaved pass.  The removal loops null out
bindings (lines 1489-1501), the materialize loop creates or refreshes bindings
(lines 1504-1537), and only then does line 1538 compare versions: a stale pass
returns with the binding mutations already applied but without updating
`visibleRange` or attaching the built fragment. -/
def updateVirtualRangeAndRender (s : RenderState) (st vh : ℚ)
    (localVersion liveVersion : Nat) : RenderState :=
  if s.markers.length = 0 then s
  else
    let r := virtualRange s.yPositions st vh
    let start := r.1
    let endIdx := r.2
    let len : Int := s.markers.length
    let prevStart := max 0 (min s.visibleRange.1 (len - 1))
    let prevEnd := max (-1) (min s.visibleRange.2 (len - 1))
    let markers1 :=
      if prevStart ≤ prevEnd then
        mapWithIndex (fun i m =>
          if (prevStart ≤ i ∧ i < min (start : Int) (prevEnd + 1)) ∨
              (max (endIdx + 1) prevStart ≤ i ∧ i ≤ prevEnd) then
            { m with dotElement := false }
          else m) 0 s.markers
      else s.markers.map (fun m => { m with dotElement := false })
    let markers2 := mapWithIndex (fun i m =>
      if (start : Int) ≤ i ∧ i ≤ endIdx then { m with dotElement := true }
      else m) 0 markers1
    if localVersion ≠ liveVersion then { s with markers := markers2 }
    else { markers := markers2, yPositions := s.yPositions, visibleRange := ((start : Int), endIdx) }

/- ===== Active-marker resolver: anti-flicker (content.js lines 1729-1769) ===== -/

/-- The state touched by the anti-flicker logic of `computeActiveByScroll`.
The timer handle is a Boolean here; the delay the timer was created with does
not influence which id it applies when it fires. -/
structure ActiveState where
  activeTurnId : Option String
  lastActiveChangeTime : ℚ
  pendingActiveId : Option String
  timerActive : Bool
deriving DecidableEq

/-- `this.minActiveChangeInterval` (content.js line 38). -/
def minActiveChangeInterval : ℚ := 120

/-- The apply-or-coalesce tail of `computeActiveByScroll` (content.js lines
1745-1768).  `activeId` is the candidate resolved by the marker scan and `now`
the current clock.  A differing candidate inside the interval is stored as
pending (overwriting any previous pending value) and a timer is armed if none
is; a candidate equal to the current id leaves the whole state alone. -/
def computeActiveByScroll (s : ActiveState) (activeId : String) (now : ℚ) : ActiveState :=
  if s.activeTurnId ≠ some activeId then
    let since := now - s.lastActiveChangeTime
    if since < minActiveChangeInterval then
      if s.timerActive then { s with pendingActiveId := some activeId }
      else { s with pendingActiveId := some activeId, timerActive := true }
    else { s with activeTurnId := some activeId, lastActiveChangeTime := now }
  else s

/-- The coalescing timer callback (content.js lines 1753-1761): clear the
handle, apply the pending candidate when it is truthy and differs from the
current id, then clear the pending candidate. -/
def activeChangeTimerFire (s : ActiveState) (now : ℚ) : ActiveState :=
  let s0 := { s with timerActive := false }
  let s1 :=
    match s0.pendingActiveId with
    | some p =>
      if p ≠ "" ∧ some p ≠ s0.activeTurnId then
        { s0 with activeTurnId := some p, lastActiveChangeTime := now }
      else s0
    | none => s0
  { s1 with pendingActiveId := none }

/- ===== Tooltip placement (content.js lines 1645-1678) ===== -/

/-- The gap budget (content.js lines 1649-1652). -/
def tooltipGap (arrowOut baseGap boxGap : ℚ) : ℚ :=
  baseGap + max 0 arrowOut + max 0 boxGap

/-- Available room left of the anchor (content.js line 1656). -/
def leftAvailOf (dotLeft arrowOut baseGap boxGap : ℚ) : ℚ :=
  max 0 (dotLeft - tooltipGap arrowOut baseGap boxGap - 8)

/-- Available room right of the anchor (content.js line 1657). -/
def rightAvailOf (dotRight vw arrowOut baseGap boxGap : ℚ) : ℚ :=
  max 0 (vw - dotRight - tooltipGap arrowOut baseGap boxGap - 8)

/-- The available room on the side `computePlacementInfo` initially chooses. -/
def chosenAvail (dotLeft dotRight vw arrowOut baseGap boxGap : ℚ) : ℚ :=
  if leftAvailOf dotLeft arrowOut baseGap boxGap <
      rightAvailOf dotRight vw arrowOut baseGap boxGap then
    rightAvailOf dotRight vw arrowOut baseGap boxGap
  else leftAvailOf dotLeft arrowOut baseGap boxGap

/-- The descending width tier list (content.js line 1661). -/
def tooltipWidthTiers : List ℚ := [280, 240, 200, 160]

/-- `computePlacementInfo` (content.js lines 1645-1678).  `dotLeft`/`dotRight`
come from the anchor bounding rectangle, `vw` is the viewport width, and the
gap components and `maxW` are the CSS variables (defaults 6, 12, 8 and 288).
Returns the placement string and the chosen width. -/
def computePlacementInfo (dotLeft dotRight vw arrowOut baseGap boxGap maxW : ℚ) : String × ℚ :=
  let minW : ℚ := 160
  let leftAvail := leftAvailOf dotLeft arrowOut baseGap boxGap
  let rightAvail := rightAvailOf dotRight vw arrowOut baseGap boxGap
  let placement := if leftAvail < rightAvail then "right" else "left"
  let avail := if placement = "right" then rightAvail else leftAvail
  let hardMax := max minW (min maxW ((⌊avail⌋ : ℤ) : ℚ))
  let width := (tooltipWidthTiers.find? (fun t => t ≤ hardMax)).getD (max minW (min hardMax 160))
  let pw : String × ℚ :=
    if width < minW ∧ placement = "left" ∧ leftAvail < rightAvail then
      let hardMax2 := max minW (min maxW ((⌊rightAvail⌋ : ℤ) : ℚ))
      ("right", (tooltipWidthTiers.find? (fun t => t ≤ hardMax2)).getD (max 120 (min hardMax2 minW)))
    else if width < minW ∧ placement = "right" ∧ rightAvail ≤ leftAvail then
      let hardMax2 := max minW (min maxW ((⌊leftAvail⌋ : ℤ) : ℚ))
      ("left", (tooltipWidthTiers.find? (fun t => t ≤ hardMax2)).getD (max 120 (min hardMax2 minW)))
    else (placement, width)
  (pw.1, max 120 (min pw.2 maxW))

/-- The map used to exercise the collision retry loop of `ensureMessageId`: it
binds the initial candidate for fingerprint "f" and all nine suffixed
candidates (suffix 1 through 9) to other fingerprints. -/
def collisionMap : FpMap :=
  ("other0", "ds-turn-" ++ hashString "f") ::
    (List.range 9).map (fun k =>
      ("other" ++ toString (k + 1), suffixCandidate "f" (hashString "f") (k + 1)))

/-- A partially colliding map: it binds the initial candidate for fingerprint
"f" and the suffixed candidates 1 through 3 to other fingerprints, leaving the
suffix-4 candidate free, so the retry loop stops at suffix 4. -/
def partialCollisionMap : FpMap :=
  ("other0", "ds-turn-" ++ hashString "f") ::
    (List.range 3).map (fun k =>
      ("other" ++ toString (k + 1), suffixCandidate "f" (hashString "f") (k + 1)))

/-- A one-marker state with a live visual binding in the previous range: a pass
computed at scroll offset 200 moves the range away from index 0. -/
def staleRenderState : RenderState :=
  { markers := [{ turnId := "a", n := 0, starred := false, dotElement := true }],
    yPositions := [0],
    visibleRange := (0, 0) }

/-- The pending candidate left behind by a burst of `computeActiveByScroll`
calls: a candidate equal to the applied id leaves the slot alone, every other
candidate overwrites it. -/
def pendingAfter (a : Option String) (p0 : Option String)
    (cs : List (String × ℚ)) : Option String :=
  cs.foldl (fun acc c => if a ≠ some c.1 then some c.1 else acc) p0

/-- The initial anti-flicker state used by the C5 witness. -/
def exActiveState : ActiveState :=
  { activeTurnId := some "A", lastActiveChangeTime := 0,
    pendingActiveId := none, timerActive := false }

/-- The candidate burst used by the C5 witness: "B" at t = 10, "C" at t = 20. -/
def exCandidates : List (String × ℚ) := [("B", 10), ("C", 20)]

/- ===================== Theorems ===================== -/

/- ----- Min-gap solver lemmas ----- -/

theorem fwdFrom_length (prev gap : ℚ) (l : List ℚ) : (fwdFrom prev gap l).length = l.length := by
  induction l generalizing prev with
  | nil => rfl
  | cons p ps ih => simp [fwdFrom, ih]

theorem fwdFrom_chain (prev gap : ℚ) (l : List ℚ) :
    List.Chain' (fun a b => a + gap ≤ b) (prev :: fwdFrom prev gap l) := by
  induction l generalizing prev with
  | nil => simp [fwdFrom]
  | cons p ps ih =>
    simp only [fwdFrom]
    exact List.chain'_cons.mpr ⟨le_max_right _ _, ih _⟩

theorem fwdFrom_lower (gap m : ℚ) :
    ∀ (l : List ℚ), (∀ x ∈ l, m ≤ x) → ∀ (prev : ℚ), ∀ y ∈ fwdFrom prev gap l, m ≤ y := by
  intro l
  induction l with
  | nil => intro _ prev y hy; simp [fwdFrom] at hy
  | cons p ps ih =>
    intro hl prev y hy
    simp only [fwdFrom, List.mem_cons] at hy
    rcases hy with rfl | hy
    · exact le_trans (hl p (by simp)) (le_max_left _ _)
    · exact ih (fun x hx => hl x (by simp [hx])) _ y hy

theorem chain_upper_of_getLastD (gap maxTop : ℚ) (hg : 0 ≤ gap) :
    ∀ (l : List ℚ), List.Chain' (fun a b => a + gap ≤ b) l → l.getLastD 0 ≤ maxTop →
      ∀ x ∈ l, x ≤ maxTop := by
  intro l
  induction l with
  | nil => intro _ _ x hx; simp at hx
  | cons a t ih =>
    intro hc hlast x hx
    cases t with
    | nil =>
      rcases List.mem_singleton.mp hx with rfl
      simpa using hlast
    | cons b t2 =>
      rw [List.chain'_cons] at hc
      have hlast2 : (b :: t2).getLastD 0 ≤ maxTop := by
        rw [List.getLastD_cons] at hlast
        rw [List.getLastD_cons] at hlast
        rw [List.getLastD_cons]
        exact hlast
      rcases List.mem_cons.mp hx with rfl | hx
      · have hb : b ≤ maxTop := ih hc.2 hlast2 b (by simp)
        have := hc.1
        linarith
      · exact ih hc.2 hlast2 x hx

theorem bwdFrom_length (next gap : ℚ) (l : List ℚ) : (bwdFrom next gap l).length = l.length := by
  induction l generalizing next with
  | nil => rfl
  | cons p ps ih => simp [bwdFrom, ih]

theorem bwdFrom_chain (next gap : ℚ) (l : List ℚ) :
    List.Chain' (fun a b => b + gap ≤ a) (next :: bwdFrom next gap l) := by
  induction l generalizing next with
  | nil => simp [bwdFrom]
  | cons p ps ih =>
    simp only [bwdFrom]
    refine List.chain'_cons.mpr ⟨?_, ih _⟩
    have : min p (next - gap) ≤ next - gap := min_le_right _ _
    linarith

theorem bwdFrom_le (gap : ℚ) (hg : 0 ≤ gap) :
    ∀ (l : List ℚ) (next : ℚ), ∀ x ∈ bwdFrom next gap l, x ≤ next := by
  intro l
  induction l with
  | nil => intro next x hx; simp [bwdFrom] at hx
  | cons p ps ih =>
    intro next x hx
    simp only [bwdFrom, List.mem_cons] at hx
    rcases hx with rfl | hx
    · have := min_le_right p (next - gap); linarith
    · have h1 := ih (min p (next - gap)) x hx
      have := min_le_right p (next - gap)
      linarith

theorem antichain_head_ge (gap m : ℚ) (hg : 0 ≤ gap) :
    ∀ (t : List ℚ) (a : ℚ), List.Chain' (fun x y => y + gap ≤ x) (a :: t) →
      (∀ x ∈ a :: t, m ≤ x) → m + (t.length : ℚ) * gap ≤ a := by
  intro t
  induction t with
  | nil => intro a _ hm; simpa using hm a (by simp)
  | cons b t2 ih =>
    intro a hc hm
    rw [List.chain'_cons] at hc
    have hb := ih b hc.2 (fun x hx => hm x (List.mem_cons_of_mem a hx))
    have hlen : (((b :: t2).length : ℕ) : ℚ) = (t2.length : ℚ) + 1 := by
      push_cast [List.length_cons]
      ring
    rw [hlen]
    have hexp : ((t2.length : ℚ) + 1) * gap = (t2.length : ℚ) * gap + gap := by ring
    have := hc.1
    linarith

theorem bwdFrom_lower (gap m : ℚ) (hg : 0 ≤ gap) :
    ∀ (l : List ℚ) (next : ℚ), List.Chain' (fun x y => y + gap ≤ x) l →
      (∀ x ∈ l, m ≤ x) → m + (l.length : ℚ) * gap ≤ next →
      ∀ y ∈ bwdFrom next gap l, m ≤ y := by
  intro l
  induction l with
  | nil => intro next _ _ _ y hy; simp [bwdFrom] at hy
  | cons p ps ih =>
    intro next hc hm hb y hy
    have hlen : (((p :: ps).length : ℕ) : ℚ) = (ps.length : ℚ) + 1 := by
      push_cast [List.length_cons]
      ring
    rw [hlen] at hb
    have hexp : ((ps.length : ℚ) + 1) * gap = (ps.length : ℚ) * gap + gap := by ring
    have hnext : m + (ps.length : ℚ) * gap ≤ next - gap := by linarith
    have hp : m + (ps.length : ℚ) * gap ≤ p := antichain_head_ge gap m hg ps p hc hm
    have hv : m + (ps.length : ℚ) * gap ≤ min p (next - gap) := le_min hp hnext
    have hmge : (0 : ℚ) ≤ (ps.length : ℚ) * gap := mul_nonneg (Nat.cast_nonneg _) hg
    simp only [bwdFrom, List.mem_cons] at hy
    rcases hy with rfl | hy
    · linarith
    · exact ih (min p (next - gap)) hc.tail (fun x hx => hm x (List.mem_cons_of_mem p hx)) hv y hy

theorem finalClamp_eq_self (minTop maxTop x : ℚ) (h1 : minTop ≤ x) (h2 : x ≤ maxTop) :
    finalClamp minTop maxTop x = x := by
  simp only [finalClamp]
  rw [if_neg (not_lt.mpr h1), if_neg (not_lt.mpr h2)]

theorem finalClamp_bounds (minTop maxTop x : ℚ) (h : minTop ≤ maxTop) :
    minTop ≤ finalClamp minTop maxTop x ∧ finalClamp minTop maxTop x ≤ maxTop := by
  simp only [finalClamp]
  by_cases h1 : x < minTop
  · rw [if_pos h1]
    by_cases h2 : maxTop < minTop
    · rw [if_pos h2]; exact ⟨h, le_rfl⟩
    · rw [if_neg h2]; exact ⟨le_rfl, h⟩
  · rw [if_neg h1]
    by_cases h2 : maxTop < x
    · rw [if_pos h2]; exact ⟨h, le_rfl⟩
    · rw [if_neg h2]; exact ⟨not_lt.mp h1, not_lt.mp h2⟩

theorem map_finalClamp_id (minTop maxTop : ℚ) :
    ∀ (l : List ℚ), (∀ x ∈ l, minTop ≤ x ∧ x ≤ maxTop) →
      l.map (finalClamp minTop maxTop) = l := by
  intro l
  induction l with
  | nil => intro _; simp
  | cons a t ih =>
    intro h
    simp only [List.map_cons]
    rw [finalClamp_eq_self _ _ _ (h a (by simp)).1 (h a (by simp)).2,
      ih (fun x hx => h x (by simp [hx]))]

theorem backwardFix_spec (fwd : List ℚ) (minTop maxTop gap : ℚ)
    (hne : fwd ≠ [])
    (hg : 0 ≤ gap) (hmm : minTop ≤ maxTop)
    (hch : List.Chain' (fun a b => a + gap ≤ b) fwd)
    (hlow : ∀ x ∈ fwd, minTop ≤ x)
    (hfeas : ((fwd.length : ℚ) - 1) * gap ≤ maxTop - minTop) :
    (backwardFix fwd minTop maxTop gap).length = fwd.length ∧
    List.Chain' (fun a b => a + gap ≤ b) (backwardFix fwd minTop maxTop gap) ∧
    ∀ x ∈ backwardFix fwd minTop maxTop gap, minTop ≤ x ∧ x ≤ maxTop := by
  by_cases hb : maxTop < fwd.getLastD 0
  case neg =>
    have heq : backwardFix fwd minTop maxTop gap = fwd := by
      simp only [backwardFix]
      rw [if_neg hb]
    rw [heq]
    refine ⟨rfl, hch, fun x hx => ⟨hlow x hx, ?_⟩⟩
    exact chain_upper_of_getLastD gap maxTop hg fwd hch (not_lt.mp hb) x hx
  case pos =>
    have h1len : 1 ≤ fwd.length := by
      cases fwd with
      | nil => exact absurd rfl hne
      | cons a t => simp
    have hlen1 : fwd.dropLast.length = fwd.length - 1 := List.length_dropLast fwd
    have hbrev_chain : List.Chain' (fun x y => y + gap ≤ x) fwd.dropLast.reverse := by
      rw [List.chain'_reverse]
      exact hch.init
    have hbrev_low : ∀ x ∈ fwd.dropLast.reverse, minTop ≤ x := by
      intro x hx
      rw [List.mem_reverse] at hx
      exact hlow x ((List.dropLast_prefix fwd).subset hx)
    have hbrev_len : ((fwd.dropLast.reverse.length : ℕ) : ℚ) = (fwd.length : ℚ) - 1 := by
      rw [List.length_reverse, hlen1, Nat.cast_sub h1len, Nat.cast_one]
    have hfeas2 : minTop + (fwd.dropLast.reverse.length : ℚ) * gap ≤ maxTop := by
      rw [hbrev_len]
      linarith
    have hbwd_low : ∀ y ∈ bwdFrom maxTop gap fwd.dropLast.reverse, minTop ≤ y :=
      bwdFrom_lower gap minTop hg fwd.dropLast.reverse maxTop hbrev_chain hbrev_low hfeas2
    have hbwd_high : ∀ y ∈ bwdFrom maxTop gap fwd.dropLast.reverse, y ≤ maxTop :=
      fun y hy => bwdFrom_le gap hg fwd.dropLast.reverse maxTop y hy
    have hout_chain : List.Chain' (fun a b => a + gap ≤ b)
        (maxTop :: bwdFrom maxTop gap fwd.dropLast.reverse).reverse := by
      rw [List.chain'_reverse]
      exact bwdFrom_chain maxTop gap fwd.dropLast.reverse
    have hout_low : ∀ x ∈ (maxTop :: bwdFrom maxTop gap fwd.dropLast.reverse).reverse,
        minTop ≤ x := by
      intro x hx
      rw [List.mem_reverse, List.mem_cons] at hx
      rcases hx with rfl | hx
      · exact hmm
      · exact hbwd_low x hx
    have hout_high : ∀ x ∈ (maxTop :: bwdFrom maxTop gap fwd.dropLast.reverse).reverse,
        x ≤ maxTop := by
      intro x hx
      rw [List.mem_reverse, List.mem_cons] at hx
      rcases hx with rfl | hx
      · exact le_rfl
      · exact hbwd_high x hx
    have hout_len : (maxTop :: bwdFrom maxTop gap fwd.dropLast.reverse).reverse.length
        = fwd.length := by
      rw [List.length_reverse, List.length_cons, bwdFrom_length, List.length_reverse, hlen1]
      omega
    have heq : backwardFix fwd minTop maxTop gap =
        match (maxTop :: bwdFrom maxTop gap fwd.dropLast.reverse).reverse with
        | [] => ([] : List ℚ)
        | q0 :: qrest =>
          if q0 < minTop then minTop :: fwdFrom minTop gap qrest
          else (maxTop :: bwdFrom maxTop gap fwd.dropLast.reverse).reverse := by
      simp only [backwardFix]
      rw [if_pos hb]
    cases hqq : (maxTop :: bwdFrom maxTop gap fwd.dropLast.reverse).reverse with
    | nil =>
      exfalso
      have := congrArg List.length hqq
      simp at this
    | cons q0 qrest =>
      have hq0 : minTop ≤ q0 := hout_low q0 (by rw [hqq]; simp)
      have heq2 : backwardFix fwd minTop maxTop gap = q0 :: qrest := by
        rw [heq, hqq]
        exact if_neg (not_lt.mpr hq0)
      rw [heq2, ← hqq]
      exact ⟨hout_len, hout_chain, fun x hx => ⟨hout_low x hx, hout_high x hx⟩⟩

theorem applyMinGap_feasible (positions : List ℚ) (minTop maxTop gap : ℚ)
    (hg : 0 ≤ gap)
    (hin : ∀ p ∈ positions, minTop ≤ p ∧ p ≤ maxTop)
    (hfeas : ((positions.length : ℚ) - 1) * gap ≤ maxTop - minTop) :
    List.Chain' (fun a b => a + gap ≤ b) (applyMinGap positions minTop maxTop gap) ∧
    ∀ x ∈ applyMinGap positions minTop maxTop gap, minTop ≤ x ∧ x ≤ maxTop := by
  cases positions with
  | nil => simp [applyMinGap]
  | cons p0 rest =>
    have h0 := hin p0 (by simp)
    have hmm : minTop ≤ maxTop := le_trans h0.1 h0.2
    have hy0low : minTop ≤ max minTop (min p0 maxTop) := le_max_left _ _
    have hfwd_chain := fwdFrom_chain (max minTop (min p0 maxTop)) gap rest
    have hfwd_low : ∀ x ∈ max minTop (min p0 maxTop) ::
        fwdFrom (max minTop (min p0 maxTop)) gap rest, minTop ≤ x := by
      intro x hx
      rcases List.mem_cons.mp hx with rfl | hx
      · exact hy0low
      · exact fwdFrom_lower gap minTop rest (fun z hz => (hin z (by simp [hz])).1) _ x hx
    have hlenf : (((max minTop (min p0 maxTop) ::
        fwdFrom (max minTop (min p0 maxTop)) gap rest).length : ℕ) : ℚ)
        = (((p0 :: rest).length : ℕ) : ℚ) := by
      simp [fwdFrom_length]
    have hbf := backwardFix_spec
      (max minTop (min p0 maxTop) :: fwdFrom (max minTop (min p0 maxTop)) gap rest)
      minTop maxTop gap (by simp) hg hmm hfwd_chain hfwd_low (by rw [hlenf]; exact hfeas)
    have heq : applyMinGap (p0 :: rest) minTop maxTop gap =
        backwardFix (max minTop (min p0 maxTop) ::
          fwdFrom (max minTop (min p0 maxTop)) gap rest) minTop maxTop gap := by
      simp only [applyMinGap]
      exact map_finalClamp_id minTop maxTop _ hbf.2.2
    rw [heq]
    exact ⟨hbf.2.1, fun x hx => hbf.2.2 x hx⟩

theorem backwardFix_length (a : ℚ) (t : List ℚ) (minTop maxTop gap : ℚ) :
    (backwardFix (a :: t) minTop maxTop gap).length = t.length + 1 := by
  simp only [backwardFix]
  by_cases hb : maxTop < (a :: t).getLastD 0
  · rw [if_pos hb]
    cases hqq : (maxTop :: bwdFrom maxTop gap (a :: t).dropLast.reverse).reverse with
    | nil =>
      exfalso
      have := congrArg List.length hqq
      simp at this
    | cons q0 qrest =>
      have hlen : qrest.length = t.length := by
        have := congrArg List.length hqq
        simp [bwdFrom_length] at this
        omega
      show (if q0 < minTop then minTop :: fwdFrom minTop gap qrest else q0 :: qrest).length
        = t.length + 1
      by_cases hq : q0 < minTop
      · rw [if_pos hq]
        simp [fwdFrom_length, hlen]
      · rw [if_neg hq]
        simp [hlen]
  · rw [if_neg hb]
    simp

theorem applyMinGap_length (positions : List ℚ) (minTop maxTop gap : ℚ) :
    (applyMinGap positions minTop maxTop gap).length = positions.length := by
  cases positions with
  | nil => rfl
  | cons p0 rest =>
    simp only [applyMinGap, List.length_map]
    rw [backwardFix_length]
    simp [fwdFrom_length]

theorem chain'_getD (gap : ℚ) :
    ∀ (l : List ℚ), List.Chain' (fun a b => a + gap ≤ b) l →
      ∀ i, i + 1 < l.length → l.getD i 0 + gap ≤ l.getD (i + 1) 0 := by
  intro l
  induction l with
  | nil => intro _ i hi; simp at hi
  | cons a t ih =>
    intro hc i hi
    cases t with
    | nil =>
      simp only [List.length_cons, List.length_nil] at hi
      omega
    | cons b t2 =>
      rw [List.chain'_cons] at hc
      cases i with
      | zero =>
        have e0 : (a :: b :: t2).getD 0 0 = a := rfl
        have e1 : (a :: b :: t2).getD 1 0 = b := rfl
        rw [e0, e1]
        exact hc.1
      | succ j =>
        have hj : j + 1 < (b :: t2).length := by
          simp only [List.length_cons] at hi ⊢
          omega
        have := ih hc.2 j hj
        rw [List.getD_cons_succ, List.getD_cons_succ]
        exact this

theorem getD_mem (d : ℚ) : ∀ (l : List ℚ) (i : ℕ), i < l.length → l.getD i d ∈ l := by
  intro l
  induction l with
  | nil => intro i hi; simp at hi
  | cons a t ih =>
    intro i hi
    cases i with
    | zero => simp
    | succ j =>
      rw [List.getD_cons_succ]
      refine List.mem_cons_of_mem a (ih j ?_)
      simp only [List.length_cons] at hi
      omega

/-- C1: for every marker list processed by `updateTimelineGeometry` (which sets
the content height to at least `2*pad + (N-1)*minGap`, so the usable range can
fit all N markers), the yPositions array produced via `applyMinGap` keeps every
pair of adjacent positions at least `minGap` apart and every position inside
`[pad, pad + usableC]`. -/
theorem updateTimelineGeometry_minGap_invariant (baseNs : List ℚ) (H pad minGap : ℚ)
    (hg : 0 ≤ minGap) :
    (∀ i, i + 1 < (updateTimelineGeometry baseNs H pad minGap).length →
      minGap ≤ (updateTimelineGeometry baseNs H pad minGap).getD (i + 1) 0 -
        (updateTimelineGeometry baseNs H pad minGap).getD i 0) ∧
    (∀ i, i < (updateTimelineGeometry baseNs H pad minGap).length →
      pad ≤ (updateTimelineGeometry baseNs H pad minGap).getD i 0 ∧
      (updateTimelineGeometry baseNs H pad minGap).getD i 0 ≤
        pad + usableCOf baseNs.length H pad minGap) := by
  have husable1 : (1 : ℚ) ≤ usableCOf baseNs.length H pad minGap := le_max_left _ _
  have husable0 : (0 : ℚ) ≤ usableCOf baseNs.length H pad minGap :=
    le_trans (by norm_num) husable1
  have hin : ∀ p ∈ baseNs.map
      (fun b => pad + max 0 (min 1 b) * usableCOf baseNs.length H pad minGap),
      pad ≤ p ∧ p ≤ pad + usableCOf baseNs.length H pad minGap := by
    intro p hp
    rw [List.mem_map] at hp
    obtain ⟨b, _, rfl⟩ := hp
    constructor
    · have : (0 : ℚ) ≤ max 0 (min 1 b) * usableCOf baseNs.length H pad minGap :=
        mul_nonneg (le_max_left _ _) husable0
      linarith
    · have h1 : max 0 (min 1 b) ≤ 1 := max_le (by norm_num) (min_le_left _ _)
      have := mul_le_of_le_one_left husable0 h1
      linarith
  have hfeas : ((baseNs.length : ℚ) - 1) * minGap ≤
      (pad + usableCOf baseNs.length H pad minGap) - pad := by
    have hsub : (pad + usableCOf baseNs.length H pad minGap) - pad =
        usableCOf baseNs.length H pad minGap := by ring
    rw [hsub]
    rcases Nat.eq_zero_or_pos baseNs.length with h0 | hpos
    · rw [h0]
      have he : ((0 : ℕ) : ℚ) - 1 = -1 := by norm_num
      rw [he]
      have h1 : (1 : ℚ) ≤ usableCOf 0 H pad minGap := le_max_left _ _
      linarith
    · have hceil : max H (2 * pad + ((baseNs.length - 1 : ℕ) : ℚ) * minGap) ≤
          contentHeightOf baseNs.length H pad minGap := by
        simp only [contentHeightOf]
        rw [if_pos hpos]
        exact Int.le_ceil _
      have h2 : 2 * pad + ((baseNs.length - 1 : ℕ) : ℚ) * minGap ≤
          contentHeightOf baseNs.length H pad minGap :=
        le_trans (le_max_right _ _) hceil
      have hcast : ((baseNs.length - 1 : ℕ) : ℚ) = (baseNs.length : ℚ) - 1 := by
        rw [Nat.cast_sub hpos, Nat.cast_one]
      simp only [usableCOf]
      refine le_trans ?_ (le_max_right 1 _)
      rw [← hcast]
      linarith
  have hmain := applyMinGap_feasible
    (baseNs.map (fun b => pad + max 0 (min 1 b) * usableCOf baseNs.length H pad minGap))
    pad (pad + usableCOf baseNs.length H pad minGap) minGap hg hin
    (by rw [List.length_map]; exact hfeas)
  have hgeom : updateTimelineGeometry baseNs H pad minGap =
      applyMinGap
        (baseNs.map (fun b => pad + max 0 (min 1 b) * usableCOf baseNs.length H pad minGap))
        pad (pad + usableCOf baseNs.length H pad minGap) minGap := by
    simp only [updateTimelineGeometry]
  rw [hgeom]
  constructor
  · intro i hi
    have := chain'_getD minGap _ hmain.1 i hi
    linarith
  · intro i hi
    exact hmain.2 _ (getD_mem 0 _ i hi)

/-- Witness for C1 at `baseNs = [0, 1/2, 1]`, `H = 100`, `pad = 12`,
`minGap = 12`. -/
theorem updateTimelineGeometry_minGap_invariant_witness :
    (0 : ℚ) ≤ 12 ∧
    ((∀ i, i + 1 < (updateTimelineGeometry [0, 1/2, 1] 100 12 12).length →
      (12 : ℚ) ≤ (updateTimelineGeometry [0, 1/2, 1] 100 12 12).getD (i + 1) 0 -
        (updateTimelineGeometry [0, 1/2, 1] 100 12 12).getD i 0) ∧
    (∀ i, i < (updateTimelineGeometry [0, 1/2, 1] 100 12 12).length →
      (12 : ℚ) ≤ (updateTimelineGeometry [0, 1/2, 1] 100 12 12).getD i 0 ∧
      (updateTimelineGeometry [0, 1/2, 1] 100 12 12).getD i 0 ≤
        12 + usableCOf ([0, 1/2, 1] : List ℚ).length 100 12 12)) :=
  ⟨by norm_num, updateTimelineGeometry_minGap_invariant [0, 1/2, 1] 100 12 12 (by norm_num)⟩

/-- C10: for every input list (of any length, sorted or not), every gap value,
and every pair `minTop ≤ maxTop` - including infeasible spacing goals -
`applyMinGap` returns a list of the same length as its input in which every
element lies within `[minTop, maxTop]`. -/
theorem applyMinGap_length_and_bounds (positions : List ℚ) (minTop maxTop gap : ℚ)
    (h : minTop ≤ maxTop) :
    (applyMinGap positions minTop maxTop gap).length = positions.length ∧
    ∀ i, i < (applyMinGap positions minTop maxTop gap).length →
      minTop ≤ (applyMinGap positions minTop maxTop gap).getD i 0 ∧
      (applyMinGap positions minTop maxTop gap).getD i 0 ≤ maxTop := by
  refine ⟨applyMinGap_length positions minTop maxTop gap, ?_⟩
  intro i hi
  have hmem := getD_mem 0 _ i hi
  generalize hgen : (applyMinGap positions minTop maxTop gap).getD i 0 = v at hmem ⊢
  cases positions with
  | nil => simp [applyMinGap] at hmem
  | cons p0 rest =>
    have heq : applyMinGap (p0 :: rest) minTop maxTop gap =
        (backwardFix (max minTop (min p0 maxTop) ::
          fwdFrom (max minTop (min p0 maxTop)) gap rest) minTop maxTop gap).map
          (finalClamp minTop maxTop) := by
      simp only [applyMinGap]
    rw [heq, List.mem_map] at hmem
    obtain ⟨y, _, rfl⟩ := hmem
    exact finalClamp_bounds minTop maxTop y h

/-- Witness for C10 at `positions = [5, 0, 100]` (unsorted), `minTop = 10`,
`maxTop = 20`, `gap = 50` (infeasible spacing goal). -/
theorem applyMinGap_length_and_bounds_witness :
    (10 : ℚ) ≤ 20 ∧
    ((applyMinGap [5, 0, 100] 10 20 50).length = ([5, 0, 100] : List ℚ).length ∧
    ∀ i, i < (applyMinGap [5, 0, 100] 10 20 50).length →
      (10 : ℚ) ≤ (applyMinGap [5, 0, 100] 10 20 50).getD i 0 ∧
      (applyMinGap [5, 0, 100] 10 20 50).getD i 0 ≤ 20) :=
  ⟨by norm_num, applyMinGap_length_and_bounds [5, 0, 100] 10 20 50 (by norm_num)⟩

/- ----- Identity index lemmas ----- -/

theorem evictOldest_eq_drop : ∀ (k : Nat) (m : FpMap), evictOldest k m = m.drop k := by
  intro k
  induction k with
  | zero => intro m; rfl
  | succ j ih =>
    intro m
    cases m with
    | nil => rfl
    | cons e es =>
      simp only [evictOldest, List.drop_succ_cons]
      exact ih es

theorem trim_eq_drop (m : FpMap) :
    trimFingerprintMapIfNeeded m =
      if m.length < fingerprintMapLimit then m
      else m.drop (m.length - fingerprintMapLimit + 1) := by
  simp only [trimFingerprintMapIfNeeded, evictOldest_eq_drop]

theorem mapGet_none_iff (m : FpMap) (k : String) :
    mapGet m k = none ↔ ∀ e ∈ m, e.1 ≠ k := by
  simp [mapGet, List.find?_eq_none]

theorem mapGet_drop_none (m : FpMap) (k : String) (i : Nat) (h : mapGet m k = none) :
    mapGet (m.drop i) k = none := by
  rw [mapGet_none_iff] at h ⊢
  exact fun e he => h e (List.drop_subset i m he)

theorem mapGet_trim_none (m : FpMap) (k : String) (h : mapGet m k = none) :
    mapGet (trimFingerprintMapIfNeeded m) k = none := by
  rw [trim_eq_drop]
  split
  · exact h
  · exact mapGet_drop_none m k _ h

theorem any_key_eq_false (m : FpMap) (k : String) (h : mapGet m k = none) :
    m.any (fun e => e.1 = k) = false := by
  rw [mapGet_none_iff] at h
  simp only [List.any_eq_false, decide_eq_true_eq]
  exact h

theorem mapSet_append_of_none (m : FpMap) (k v : String) (h : mapGet m k = none) :
    mapSet m k v = m ++ [(k, v)] := by
  have ha := any_key_eq_false m k h
  simp [mapSet, ha]

theorem mapGet_cons (e : String × String) (m : FpMap) (k : String) :
    mapGet (e :: m) k = if e.1 = k then some e.2 else mapGet m k := by
  by_cases he : e.1 = k
  · simp [mapGet, List.find?_cons, he]
  · simp [mapGet, List.find?_cons, he]

theorem mapGet_append_of_none (m : FpMap) (k v : String) (h : mapGet m k = none) :
    mapGet (m ++ [(k, v)]) k = some v := by
  rw [mapGet_none_iff] at h
  induction m with
  | nil => simp [mapGet_cons]
  | cons e es ih =>
    rw [List.cons_append, mapGet_cons]
    rw [if_neg (h e (by simp))]
    exact ih (fun x hx => h x (by simp [hx]))

theorem find?_map_set (k v : String) :
    ∀ (m : FpMap), m.any (fun e => e.1 = k) = true →
      (m.map (fun e => if e.1 = k then (k, v) else e)).find? (fun e => decide (e.1 = k))
        = some (k, v) := by
  intro m
  induction m with
  | nil => intro h; simp at h
  | cons e es ih =>
    intro h
    by_cases he : e.1 = k
    · simp [List.find?, he]
    · have h2 : es.any (fun e => e.1 = k) = true := by
        simpa [List.any_cons, he] using h
      simp [List.find?, he, ih h2]

theorem mapGet_mapSet_self (m : FpMap) (k v : String) :
    mapGet (mapSet m k v) k = some v := by
  by_cases ha : m.any (fun e => e.1 = k) = true
  · simp only [mapSet, if_pos ha, mapGet]
    rw [find?_map_set k v m ha]
    rfl
  · have hn : mapGet m k = none := by
      rw [mapGet_none_iff]
      intro e he heq
      exact ha (by simp only [List.any_eq_true, decide_eq_true_eq]; exact ⟨e, he, heq⟩)
    rw [mapSet_append_of_none m k v hn]
    exact mapGet_append_of_none m k v hn

theorem mapSet_keys_overwrite (m : FpMap) (k v : String)
    (h : m.any (fun e => e.1 = k) = true) :
    (mapSet m k v).map (fun e => e.1) = m.map (fun e => e.1) := by
  simp only [mapSet, if_pos h, List.map_map]
  apply List.map_congr_left
  intro e _
  by_cases he : e.1 = k
  · simp [Function.comp, he]
  · simp [Function.comp, he]

theorem mapSet_nodup (m : FpMap) (k v : String)
    (h : (m.map (fun e => e.1)).Nodup) : ((mapSet m k v).map (fun e => e.1)).Nodup := by
  by_cases ha : m.any (fun e => e.1 = k) = true
  · rw [mapSet_keys_overwrite m k v ha]
    exact h
  · have hn : mapGet m k = none := by
      rw [mapGet_none_iff]
      intro e he heq
      exact ha (by simp only [List.any_eq_true, decide_eq_true_eq]; exact ⟨e, he, heq⟩)
    rw [mapSet_append_of_none m k v hn, List.map_append, List.nodup_append]
    refine ⟨h, by simp, ?_⟩
    intro x hx hx2
    simp only [List.map_cons, List.map_nil, List.mem_singleton] at hx2
    subst hx2
    rw [mapGet_none_iff] at hn
    rw [List.mem_map] at hx
    obtain ⟨e, he, rfl⟩ := hx
    exact hn e he rfl

theorem mapSet_length (m : FpMap) (k v : String) :
    (mapSet m k v).length = m.length ∨ (mapSet m k v).length = m.length + 1 := by
  simp only [mapSet]
  split
  · left; simp
  · right; simp

theorem trim_length_cases (m : FpMap) :
    (trimFingerprintMapIfNeeded m).length = m.length ∧ m.length < fingerprintMapLimit ∨
    (trimFingerprintMapIfNeeded m).length + 1 = fingerprintMapLimit := by
  rw [trim_eq_drop]
  have hlim : fingerprintMapLimit = 1200 := rfl
  split
  case isTrue hl => exact Or.inl ⟨rfl, hl⟩
  case isFalse hl =>
    right
    rw [List.length_drop]
    omega

theorem append_ne_empty (a b : String) (ha : a ≠ "") : (a ++ b) ≠ "" := by
  intro h
  have hlen := congrArg String.length h
  rw [String.length_append] at hlen
  have hz : ("" : String).length = 0 := rfl
  rw [hz] at hlen
  have ha0 : a.length ≠ 0 := by
    intro h0
    apply ha
    cases a with
    | mk data =>
      cases data with
      | nil => rfl
      | cons c cs =>
        have hc : (String.mk (c :: cs)).length = cs.length + 1 := rfl
        omega
  omega

theorem suffixCandidate_ne_empty (fp bh : String) (k : Nat) : suffixCandidate fp bh k ≠ "" :=
  append_ne_empty _ _ (append_ne_empty _ _ (append_ne_empty _ _ (by decide)))

theorem retryLoop_ne_empty (m : FpMap) (fp bh : String) :
    ∀ (r s : Nat), retryLoop m fp bh r s ≠ "" := by
  intro r
  induction r using Nat.strong_induction_on with
  | _ r ih =>
    intro s
    match r with
    | 0 => exact suffixCandidate_ne_empty fp bh s
    | 1 => exact suffixCandidate_ne_empty fp bh s
    | n + 2 =>
      simp only [retryLoop]
      split
      · exact ih (n + 1) (by omega) (s + 1)
      · exact suffixCandidate_ne_empty fp bh s

theorem foldl_mapSet_fresh :
    ∀ (l : List (String × String)) (acc : FpMap),
      (∀ e ∈ l, ∀ a ∈ acc, a.1 ≠ e.1) → (l.map (fun e => e.1)).Nodup →
      l.foldl (fun m e => mapSet m e.1 e.2) acc = acc ++ l := by
  intro l
  induction l with
  | nil => intro acc _ _; simp
  | cons e es ih =>
    intro acc hfresh hnodup
    simp only [List.map_cons, List.nodup_cons] at hnodup
    simp only [List.foldl_cons]
    have hget : mapGet acc e.1 = none := by
      rw [mapGet_none_iff]
      exact fun a ha => hfresh e (by simp) a ha
    rw [mapSet_append_of_none acc e.1 e.2 hget]
    have hpair : ((e.1, e.2) : String × String) = e := rfl
    rw [hpair]
    rw [ih (acc ++ [e]) ?_ hnodup.2]
    · rw [List.append_assoc]
      rfl
    · intro x hx a ha
      rcases List.mem_append.mp ha with ha | ha
      · exact hfresh x (by simp [hx]) a ha
      · rcases List.mem_singleton.mp ha with rfl
        intro heq
        apply hnodup.1
        rw [heq]
        exact List.mem_map_of_mem _ hx

theorem load_roundtrip (m : FpMap) (hnodup : (m.map (fun e => e.1)).Nodup) :
    loadMessageIdMap m = m := by
  have h := foldl_mapSet_fresh m [] (by intro e _ a ha; simp at ha) hnodup
  simpa [loadMessageIdMap] using h

theorem ensureMessageId_hit (m : FpMap) (fp : String) (now : Nat) (v : String)
    (h : mapGet m fp = some v) (hne : v ≠ "") : ensureMessageId m fp now = (v, m) := by
  simp [ensureMessageId, h, hne]

theorem ensureMessageId_regen (m : FpMap) (fp : String) (now : Nat)
    (h : (mapGet m fp).getD "" = "") :
    ensureMessageId m fp now
      = ((ensureMessageId m fp now).1,
         mapSet (trimFingerprintMapIfNeeded m) fp (ensureMessageId m fp now).1) := by
  simp [ensureMessageId, h]

theorem ensureMessageId_fst_ne_empty (m : FpMap) (fp : String) (now : Nat)
    (h : (mapGet m fp).getD "" = "") : (ensureMessageId m fp now).1 ≠ "" := by
  simp only [ensureMessageId]
  rw [h, if_pos rfl]
  by_cases hb : isTurnIdTaken m ("ds-turn-" ++ hashString fp) fp
  · simp only [if_pos hb]
    by_cases hc : isTurnIdTaken m (retryLoop m fp (hashString fp) 9 1) fp
    · simp only [if_pos hc]
      exact append_ne_empty _ _ (append_ne_empty _ _ (append_ne_empty _ _ (by decide)))
    · simp only [if_neg hc]
      exact retryLoop_ne_empty m fp (hashString fp) 9 1
  · simp only [if_neg hb]
    exact append_ne_empty _ _ (by decide)

theorem ensureMessageId_miss (m : FpMap) (fp : String) (now : Nat) (h : mapGet m fp = none) :
    ∃ c, ensureMessageId m fp now = (c, mapSet (trimFingerprintMapIfNeeded m) fp c) := by
  refine ⟨(ensureMessageId m fp now).1, ?_⟩
  exact ensureMessageId_regen m fp now (by rw [h]; rfl)

theorem ensureMessageId_get_self (m : FpMap) (fp : String) (now : Nat) :
    mapGet (ensureMessageId m fp now).2 fp = some (ensureMessageId m fp now).1 ∧
    (ensureMessageId m fp now).1 ≠ "" := by
  by_cases h : (mapGet m fp).getD "" = ""
  · have hne := ensureMessageId_fst_ne_empty m fp now h
    refine ⟨?_, hne⟩
    conv_lhs => rw [ensureMessageId_regen m fp now h]
    conv_rhs => rw [ensureMessageId_regen m fp now h]
    exact mapGet_mapSet_self _ fp _
  · cases hm : mapGet m fp with
    | none => rw [hm] at h; exact absurd rfl h
    | some v =>
      rw [hm] at h
      simp only [Option.getD_some] at h
      rw [ensureMessageId_hit m fp now v hm h]
      exact ⟨hm, h⟩

theorem ensureMessageId_miss_length (m : FpMap) (fp : String) (now : Nat)
    (h : mapGet m fp = none) :
    (ensureMessageId m fp now).2.length ≤ fingerprintMapLimit := by
  obtain ⟨c, hc⟩ := ensureMessageId_miss m fp now h
  rw [hc]
  have htrim := mapGet_trim_none m fp h
  rw [mapSet_append_of_none _ fp c htrim, List.length_append]
  rw [trim_eq_drop]
  have hlim : fingerprintMapLimit = 1200 := rfl
  split
  case isTrue hl => simp only [List.length_cons, List.length_nil]; omega
  case isFalse hl =>
    simp only [List.length_drop, List.length_cons, List.length_nil]
    omega

theorem ensureMessageId_length (m : FpMap) (fp : String) (now : Nat)
    (hlen : m.length ≤ fingerprintMapLimit) :
    (ensureMessageId m fp now).2.length ≤ fingerprintMapLimit := by
  by_cases h : (mapGet m fp).getD "" = ""
  · conv_lhs => rw [ensureMessageId_regen m fp now h]
    rcases mapSet_length (trimFingerprintMapIfNeeded m) fp (ensureMessageId m fp now).1
      with hs | hs <;>
    rcases trim_length_cases m with ⟨ht, hlt⟩ | ht <;> simp only [hs] <;> omega
  · cases hm : mapGet m fp with
    | none => rw [hm] at h; exact absurd rfl h
    | some v =>
      rw [hm] at h
      simp only [Option.getD_some] at h
      rw [ensureMessageId_hit m fp now v hm h]
      exact hlen

theorem trim_nodup (m : FpMap) (hnodup : (m.map (fun e => e.1)).Nodup) :
    ((trimFingerprintMapIfNeeded m).map (fun e => e.1)).Nodup := by
  rw [trim_eq_drop]
  split
  · exact hnodup
  · rw [List.map_drop]
    exact List.Nodup.sublist (List.drop_sublist _ _) hnodup

theorem ensureMessageId_nodup (m : FpMap) (fp : String) (now : Nat)
    (hnodup : (m.map (fun e => e.1)).Nodup) :
    ((ensureMessageId m fp now).2.map (fun e => e.1)).Nodup := by
  by_cases h : (mapGet m fp).getD "" = ""
  · rw [ensureMessageId_regen m fp now h]
    exact mapSet_nodup _ fp _ (trim_nodup m hnodup)
  · cases hm : mapGet m fp with
    | none => rw [hm] at h; exact absurd rfl h
    | some v =>
      rw [hm] at h
      simp only [Option.getD_some] at h
      rw [ensureMessageId_hit m fp now v hm h]
      exact hnodup

/-- C2: for a fixed fingerprint (conversation key, role, content signature and
timestamp), `ensureMessageId` returns the same id on every repeated invocation
within a session, and a fresh instance whose fingerprint map is seeded from the
same persisted store resolves the same fingerprint to the same id.  The map is
assumed within its size limit with distinct keys, which the operations
themselves maintain (`ensureMessageId_length`, `ensureMessageId_nodup`). -/
theorem ensureMessageId_deterministic (m : FpMap) (fp : String) (t1 t2 t3 : Nat)
    (hnodup : (m.map (fun e => e.1)).Nodup)
    (hlen : m.length ≤ fingerprintMapLimit) :
    (ensureMessageId (ensureMessageId m fp t1).2 fp t2).1 = (ensureMessageId m fp t1).1 ∧
    (ensureMessageId
        (loadMessageIdMap (persistFingerprintMap (ensureMessageId m fp t1).2)) fp t3).1
      = (ensureMessageId m fp t1).1 := by
  have hget := ensureMessageId_get_self m fp t1
  have hlen1 := ensureMessageId_length m fp t1 hlen
  have hnd1 := ensureMessageId_nodup m fp t1 hnodup
  constructor
  · rw [ensureMessageId_hit _ fp t2 _ hget.1 hget.2]
  · have hpersist : persistFingerprintMap (ensureMessageId m fp t1).2
        = (ensureMessageId m fp t1).2 := by
      simp only [persistFingerprintMap]
      rw [if_neg (by omega)]
    rw [hpersist, load_roundtrip _ hnd1, ensureMessageId_hit _ fp t3 _ hget.1 hget.2]

/-- Witness for C2 at the empty map and fingerprint "f". -/
theorem ensureMessageId_deterministic_witness :
    ((([] : FpMap).map (fun e => e.1)).Nodup ∧ ([] : FpMap).length ≤ fingerprintMapLimit) ∧
    ((ensureMessageId (ensureMessageId [] "f" 1).2 "f" 2).1 = (ensureMessageId [] "f" 1).1 ∧
    (ensureMessageId
        (loadMessageIdMap (persistFingerprintMap (ensureMessageId [] "f" 1).2)) "f" 3).1
      = (ensureMessageId [] "f" 1).1) :=
  ⟨⟨by decide, by decide⟩, ensureMessageId_deterministic [] "f" 1 2 3 (by decide) (by decide)⟩

/-- C9: after every insertion into the fingerprint map (the miss path of
`ensureMessageId`) the map holds at most `fingerprintMapLimit` entries, and the
trim that makes room removes exactly the oldest entries in insertion order (a
`drop` of the front of the insertion-ordered map). -/
theorem fingerprintMap_bounded_and_evicts_oldest (m : FpMap) (fp : String) (now : Nat)
    (hmiss : mapGet m fp = none) :
    (ensureMessageId m fp now).2.length ≤ fingerprintMapLimit ∧
    trimFingerprintMapIfNeeded m =
      (if m.length < fingerprintMapLimit then m
       else m.drop (m.length - fingerprintMapLimit + 1)) :=
  ⟨ensureMessageId_miss_length m fp now hmiss, trim_eq_drop m⟩

/-- Witness for C9 at the empty map and fingerprint "a". -/
theorem fingerprintMap_bounded_and_evicts_oldest_witness :
    mapGet [] "a" = none ∧
    ((ensureMessageId [] "a" 0).2.length ≤ fingerprintMapLimit ∧
    trimFingerprintMapIfNeeded [] =
      (if ([] : FpMap).length < fingerprintMapLimit then ([] : FpMap)
       else ([] : FpMap).drop (([] : FpMap).length - fingerprintMapLimit + 1))) :=
  ⟨by decide, fingerprintMap_bounded_and_evicts_oldest [] "a" 0 (by decide)⟩

/- ----- The collision retry loop (C8) ----- -/

theorem retryLoop_all_taken (m : FpMap) (fp bh : String) :
    ∀ (r s : Nat),
      (∀ k, s ≤ k → k < s + r + 1 → isTurnIdTaken m (suffixCandidate fp bh k) fp = true) →
      retryLoop m fp bh (r + 1) s = suffixCandidate fp bh (s + r) := by
  intro r
  induction r with
  | zero =>
    intro s _
    simp [retryLoop]
  | succ r ih =>
    intro s h
    have hs : isTurnIdTaken m (suffixCandidate fp bh s) fp = true := h s le_rfl (by omega)
    show retryLoop m fp bh (r + 2) s = suffixCandidate fp bh (s + (r + 1))
    simp only [retryLoop, hs, if_true]
    rw [ih (s + 1) (fun k hk1 hk2 => h k (by omega) (by omega))]
    have harith : s + 1 + r = s + (r + 1) := by omega
    rw [harith]

set_option maxHeartbeats 2000000 in
/-- C8 counterexample: the claim says the retry loop appends a short hash for
up to 10 attempts and falls back only if all of those attempts collide.  On
`collisionMap` the initial candidate and the suffixed candidates 1 through 9
are taken, and the code already falls back to the timestamp-derived suffix -
even though the tenth suffixed candidate is not taken, so not all of 10
suffixed attempts collide.  The loop `while (suffix < 10)` runs suffixes 1..9,
nine suffixed attempts, not ten. -/
theorem ensureMessageId_retry_counterexample :
    (ensureMessageId collisionMap "f" 1000).1
      = "ds-turn-" ++ hashString "f" ++ "-" ++ toBase36 1000 ∧
    isTurnIdTaken collisionMap (suffixCandidate "f" (hashString "f") 10) "f" = false := by
  decide

theorem retryLoop_first_free (m : FpMap) (fp bh : String) :
    ∀ (r s k : Nat), 1 ≤ r → s ≤ k → k < s + r →
      (∀ j, s ≤ j → j < k → isTurnIdTaken m (suffixCandidate fp bh j) fp = true) →
      isTurnIdTaken m (suffixCandidate fp bh k) fp = false →
      retryLoop m fp bh r s = suffixCandidate fp bh k := by
  intro r
  induction r with
  | zero => intro s k hr _ _ _ _; exact absurd hr (by omega)
  | succ n ih =>
    intro s k hr hsk hkr htaken hfree
    rcases n with _ | n2
    · have hks : k = s := by omega
      subst hks
      rfl
    · by_cases hks : k = s
      · subst hks
        simp only [retryLoop]
        rw [if_neg (by simp [hfree])]
      · have hs : isTurnIdTaken m (suffixCandidate fp bh s) fp = true :=
          htaken s le_rfl (by omega)
        simp only [retryLoop]
        rw [if_pos hs]
        exact ih (s + 1) k (by omega) (by omega) (by omega)
          (fun j hj1 hj2 => htaken j (by omega) hj2) hfree

/-- C8 amended: on a fingerprint miss, `ensureMessageId` uses the base
candidate when it is not bound to a different fingerprint; otherwise it retries
by appending a short hash of the fingerprint plus the attempt number for up to
9 attempts (suffixes 1 through 9) and uses the first suffixed candidate that is
free; only if the base candidate and all 9 suffixed candidates are bound to
other fingerprints does it fall back to the timestamp-derived suffix. -/
theorem ensureMessageId_retry_fallback (m : FpMap) (fp : String) (now : Nat)
    (hmiss : mapGet m fp = none) :
    (isTurnIdTaken m ("ds-turn-" ++ hashString fp) fp = false →
      (ensureMessageId m fp now).1 = "ds-turn-" ++ hashString fp) ∧
    (∀ k, 1 ≤ k → k ≤ 9 →
      isTurnIdTaken m ("ds-turn-" ++ hashString fp) fp = true →
      ((List.range' 1 (k - 1)).all
        (fun j => isTurnIdTaken m (suffixCandidate fp (hashString fp) j) fp)) = true →
      isTurnIdTaken m (suffixCandidate fp (hashString fp) k) fp = false →
      (ensureMessageId m fp now).1 = suffixCandidate fp (hashString fp) k) ∧
    (isTurnIdTaken m ("ds-turn-" ++ hashString fp) fp = true →
      ((List.range' 1 9).all
        (fun k => isTurnIdTaken m (suffixCandidate fp (hashString fp) k) fp)) = true →
      (ensureMessageId m fp now).1 = "ds-turn-" ++ hashString fp ++ "-" ++ toBase36 now) := by
  refine ⟨?_, ?_, ?_⟩
  · intro hbase
    simp only [ensureMessageId, hmiss, Option.getD_none, reduceIte]
    rw [if_neg (by simp [hbase])]
  · intro k hk1 hk9 hbase hall hfree
    have hj : ∀ j, 1 ≤ j → j < k →
        isTurnIdTaken m (suffixCandidate fp (hashString fp) j) fp = true := by
      intro j hj1 hjk
      have := List.all_eq_true.mp hall j
      apply this
      rw [List.mem_range'_1]
      omega
    have hc : retryLoop m fp (hashString fp) 9 1 = suffixCandidate fp (hashString fp) k :=
      retryLoop_first_free m fp (hashString fp) 9 1 k (by omega) hk1 (by omega) hj hfree
    simp only [ensureMessageId, hmiss, Option.getD_none, reduceIte]
    rw [if_pos hbase, hc, if_neg (by simp [hfree])]
  · intro hbase hall
    have h : ∀ k, 1 ≤ k → k < 1 + 8 + 1 →
        isTurnIdTaken m (suffixCandidate fp (hashString fp) k) fp = true := by
      intro k hk1 hk2
      have := List.all_eq_true.mp hall k
      apply this
      rw [List.mem_range'_1]
      omega
    have hloop : retryLoop m fp (hashString fp) 9 1 = suffixCandidate fp (hashString fp) 9 := by
      have := retryLoop_all_taken m fp (hashString fp) 8 1 h
      simpa using this
    have h9 : isTurnIdTaken m (suffixCandidate fp (hashString fp) 9) fp = true :=
      h 9 (by omega) (by omega)
    simp only [ensureMessageId, hmiss, Option.getD_none, reduceIte]
    rw [if_pos hbase, hloop, if_pos h9]

set_option maxHeartbeats 2000000 in
/-- Witness for the amended C8, exercising all three branches: on
`collisionMap` (base and suffixes 1-9 taken) the resolved id is the timestamp
fallback; on `partialCollisionMap` (base and suffixes 1-3 taken, suffix 4 free)
it is the suffix-4 candidate; on the empty map it is the base candidate. -/
theorem ensureMessageId_retry_fallback_witness :
    (mapGet collisionMap "f" = none ∧
     isTurnIdTaken collisionMap ("ds-turn-" ++ hashString "f") "f" = true ∧
     ((List.range' 1 9).all
       (fun k => isTurnIdTaken collisionMap (suffixCandidate "f" (hashString "f") k) "f")) = true ∧
     (ensureMessageId collisionMap "f" 1000).1
       = "ds-turn-" ++ hashString "f" ++ "-" ++ toBase36 1000) ∧
    (mapGet partialCollisionMap "f" = none ∧
     isTurnIdTaken partialCollisionMap ("ds-turn-" ++ hashString "f") "f" = true ∧
     ((List.range' 1 3).all
       (fun j => isTurnIdTaken partialCollisionMap (suffixCandidate "f" (hashString "f") j) "f"))
       = true ∧
     isTurnIdTaken partialCollisionMap (suffixCandidate "f" (hashString "f") 4) "f" = false ∧
     (ensureMessageId partialCollisionMap "f" 1000).1 = suffixCandidate "f" (hashString "f") 4) ∧
    (mapGet ([] : FpMap) "f" = none ∧
     isTurnIdTaken ([] : FpMap) ("ds-turn-" ++ hashString "f") "f" = false ∧
     (ensureMessageId ([] : FpMap) "f" 0).1 = "ds-turn-" ++ hashString "f") :=
  ⟨⟨by decide, by decide, by decide,
     (ensureMessageId_retry_fallback collisionMap "f" 1000 (by decide)).2.2
       (by decide) (by decide)⟩,
   ⟨by decide, by decide, by decide, by decide,
     (ensureMessageId_retry_fallback partialCollisionMap "f" 1000 (by decide)).2.1 4
       (by decide) (by decide) (by decide) (by decide) (by decide)⟩,
   ⟨by decide, by decide,
     (ensureMessageId_retry_fallback ([] : FpMap) "f" 0 (by decide)).1 (by decide)⟩⟩

/- ----- Binary search and virtualization (C3) ----- -/

theorem bsearchLoop_spec (arr : List ℚ) (p : ℚ → Bool)
    (hmono : ∀ i j, i ≤ j → j < arr.length →
      p (arr.getD j 0) = true → p (arr.getD i 0) = true) :
    ∀ (fuel lo hi : Nat), lo ≤ hi → hi ≤ arr.length → hi - lo ≤ fuel →
      (∀ i, i < lo → p (arr.getD i 0) = true) →
      (∀ i, hi ≤ i → i < arr.length → p (arr.getD i 0) = false) →
      lo ≤ bsearchLoop arr p fuel lo hi ∧ bsearchLoop arr p fuel lo hi ≤ hi ∧
      (∀ i, i < bsearchLoop arr p fuel lo hi → p (arr.getD i 0) = true) ∧
      (∀ i, bsearchLoop arr p fuel lo hi ≤ i → i < arr.length → p (arr.getD i 0) = false) := by
  intro fuel
  induction fuel with
  | zero =>
    intro lo hi hlh hha hf hlo hhi
    have : lo = hi := by omega
    subst this
    simp only [bsearchLoop]
    exact ⟨le_rfl, le_rfl, hlo, hhi⟩
  | succ fuel ih =>
    intro lo hi hlh hha hf hlo hhi
    simp only [bsearchLoop]
    by_cases hlt : lo < hi
    · rw [if_pos hlt]
      have hmlo : lo ≤ (lo + hi) / 2 := by omega
      have hmhi : (lo + hi) / 2 < hi := by omega
      by_cases hp : p (arr.getD ((lo + hi) / 2) 0) = true
      · rw [if_pos hp]
        have hres := ih ((lo + hi) / 2 + 1) hi (by omega) hha (by omega)
          (fun i hi2 => by
            rcases Nat.lt_or_ge i lo with h | h
            · exact hlo i h
            · exact hmono i ((lo + hi) / 2) (by omega) (by omega) hp)
          hhi
        exact ⟨by omega, hres.2.1, hres.2.2.1, hres.2.2.2⟩
      · have hp2 : p (arr.getD ((lo + hi) / 2) 0) = false := by
          cases hb : p (arr.getD ((lo + hi) / 2) 0) with
          | true => exact absurd hb hp
          | false => rfl
        rw [if_neg hp]
        have hres := ih lo ((lo + hi) / 2) (by omega) (by omega) (by omega) hlo
          (fun i hi2 hi3 => by
            cases hb : p (arr.getD i 0) with
            | true =>
              exact absurd (hmono ((lo + hi) / 2) i hi2 hi3 hb) (by rw [hp2]; simp)
            | false => rfl)
        exact ⟨hres.1, by omega, hres.2.2.1, hres.2.2.2⟩
    · rw [if_neg hlt]
      have : lo = hi := by omega
      subst this
      exact ⟨le_rfl, le_rfl, hlo, hhi⟩

/-- C3: for every sorted yPositions array, scroll offset and viewport height,
the virtual range computed with buffer = max(100, vh) contains every index
whose position lies in the visible band [st, st+vh], contains no index whose
position lies outside the buffered band, and when no position lies inside the
buffered band the range is empty with end = start - 1. -/
theorem virtualRange_sound (y : List ℚ) (st vh : ℚ)
    (hsort : ∀ j, j < y.length → ∀ i, i ≤ j → y.getD i 0 ≤ y.getD j 0) :
    (∀ i, i < y.length → st ≤ y.getD i 0 → y.getD i 0 ≤ st + vh →
      (virtualRange y st vh).1 ≤ i ∧ (i : ℤ) ≤ (virtualRange y st vh).2) ∧
    (∀ i, i < y.length →
      (y.getD i 0 < st - max 100 vh ∨ st + vh + max 100 vh < y.getD i 0) →
      ¬((virtualRange y st vh).1 ≤ i ∧ (i : ℤ) ≤ (virtualRange y st vh).2)) ∧
    ((∀ i, i < y.length →
      (y.getD i 0 < st - max 100 vh ∨ st + vh + max 100 vh < y.getD i 0)) →
      (virtualRange y st vh).2 = ((virtualRange y st vh).1 : ℤ) - 1) := by
  have hbuf : (100 : ℚ) ≤ max 100 vh := le_max_left _ _
  have hL := bsearchLoop_spec y (fun v => v < st - max 100 vh)
    (fun i j hij hj hpj => by
      simp only [decide_eq_true_eq] at hpj ⊢
      exact lt_of_le_of_lt (hsort j hj i hij) hpj)
    (y.length + 1) 0 y.length (by omega) le_rfl (by omega)
    (by intro i hi2; omega)
    (by intro i hi2 hi3; omega)
  have hU := bsearchLoop_spec y (fun v => v ≤ st + vh + max 100 vh)
    (fun i j hij hj hpj => by
      simp only [decide_eq_true_eq] at hpj ⊢
      exact le_trans (hsort j hj i hij) hpj)
    (y.length + 1) 0 y.length (by omega) le_rfl (by omega)
    (by intro i hi2; omega)
    (by intro i hi2 hi3; omega)
  have hvr : virtualRange y st vh =
      (bsearchLoop y (fun v => v < st - max 100 vh) (y.length + 1) 0 y.length,
       max ((bsearchLoop y (fun v => v < st - max 100 vh) (y.length + 1) 0 y.length : ℤ) - 1)
         ((bsearchLoop y (fun v => v ≤ st + vh + max 100 vh) (y.length + 1) 0 y.length : ℤ) - 1)) := by
    simp only [virtualRange, lowerBound, upperBound]
  rw [hvr]
  simp only []
  constructor
  · intro i hilen hge hle
    constructor
    · by_contra hcon
      push_neg at hcon
      have := hL.2.2.1 i hcon
      simp only [decide_eq_true_eq] at this
      linarith
    · have hiU : i < bsearchLoop y (fun v => v ≤ st + vh + max 100 vh) (y.length + 1) 0 y.length := by
        by_contra hcon
        push_neg at hcon
        have := hU.2.2.2 i hcon hilen
        simp only [decide_eq_false_iff_not] at this
        apply this
        linarith
      refine le_trans ?_ (le_max_right _ _)
      omega
  constructor
  · intro i hilen hout hcontra
    rcases hout with hlow | hhigh
    · have := hL.2.2.2 i hcontra.1 hilen
      simp only [decide_eq_false_iff_not] at this
      exact this hlow
    · have hiU : bsearchLoop y (fun v => v ≤ st + vh + max 100 vh) (y.length + 1) 0 y.length ≤ i := by
        by_contra hcon
        push_neg at hcon
        have := hU.2.2.1 i hcon
        simp only [decide_eq_true_eq] at this
        linarith
      have h2 := hcontra.2
      rcases le_max_iff.mp h2 with hc | hc
      · have := hcontra.1
        omega
      · omega
  · intro hall
    have hUL : bsearchLoop y (fun v => v ≤ st + vh + max 100 vh) (y.length + 1) 0 y.length ≤
        bsearchLoop y (fun v => v < st - max 100 vh) (y.length + 1) 0 y.length := by
      by_contra hcon
      push_neg at hcon
      set L := bsearchLoop y (fun v => v < st - max 100 vh) (y.length + 1) 0 y.length with hLdef
      have hLlen : L < y.length := by
        have := hU.2.1
        omega
      have h1 := hL.2.2.2 L le_rfl hLlen
      simp only [decide_eq_false_iff_not] at h1
      have h2 := hU.2.2.1 L hcon
      simp only [decide_eq_true_eq] at h2
      rcases hall L hLlen with hc | hc
      · exact h1 hc
      · linarith
    rw [max_eq_left]
    omega

/-- Witness for C3 at `y = [10, 50, 200]`, `st = 40`, `vh = 50` (buffer 100,
band [-60, 190], range (0, 1)). -/
theorem virtualRange_sound_witness :
    (∀ j, j < ([10, 50, 200] : List ℚ).length → ∀ i, i ≤ j →
      ([10, 50, 200] : List ℚ).getD i 0 ≤ ([10, 50, 200] : List ℚ).getD j 0) ∧
    ((∀ i, i < ([10, 50, 200] : List ℚ).length →
      (40 : ℚ) ≤ ([10, 50, 200] : List ℚ).getD i 0 →
      ([10, 50, 200] : List ℚ).getD i 0 ≤ 40 + 50 →
      (virtualRange [10, 50, 200] 40 50).1 ≤ i ∧
        (i : ℤ) ≤ (virtualRange [10, 50, 200] 40 50).2) ∧
    (∀ i, i < ([10, 50, 200] : List ℚ).length →
      (([10, 50, 200] : List ℚ).getD i 0 < 40 - max 100 50 ∨
        (40 : ℚ) + 50 + max 100 50 < ([10, 50, 200] : List ℚ).getD i 0) →
      ¬((virtualRange [10, 50, 200] 40 50).1 ≤ i ∧
        (i : ℤ) ≤ (virtualRange [10, 50, 200] 40 50).2)) ∧
    ((∀ i, i < ([10, 50, 200] : List ℚ).length →
      (([10, 50, 200] : List ℚ).getD i 0 < 40 - max 100 50 ∨
        (40 : ℚ) + 50 + max 100 50 < ([10, 50, 200] : List ℚ).getD i 0)) →
      (virtualRange [10, 50, 200] 40 50).2 = ((virtualRange [10, 50, 200] 40 50).1 : ℤ) - 1)) :=
  ⟨by decide, virtualRange_sound [10, 50, 200] 40 50 (by decide)⟩

/- ----- Stale render pass (C4) ----- -/

/-- C4 counterexample: the claim says a stale pass (captured version differs
from the live counter at the version check) leaves all shared state unchanged,
tearing down or creating no binding.  But the removal and materialize loops
run before the version check on line 1538: on `staleRenderState`, with
`localVersion = 0` and `liveVersion = 1`, the stale pass has already torn down
the binding of marker 0 when it aborts, so the markers are mutated. -/
theorem updateVirtualRangeAndRender_stale_counterexample :
    (updateVirtualRangeAndRender staleRenderState 200 0 0 1).markers
      ≠ staleRenderState.markers ∧
    (updateVirtualRangeAndRender staleRenderState 200 0 0 1).markers.map
      (fun m => m.dotElement) = [false] ∧
    staleRenderState.markers.map (fun m => m.dotElement) = [true] := by
  norm_num [updateVirtualRangeAndRender, staleRenderState, virtualRange, lowerBound,
    upperBound, bsearchLoop, mapWithIndex]

/-- C4 amended: a stale pass of `updateVirtualRangeAndRender` discards the
range update - it leaves `visibleRange` unchanged and attaches no new nodes -
but the `dotElement` binding mutations made by the removal and materialize
loops before the version check are kept, not rolled back. -/
theorem updateVirtualRangeAndRender_stale_preserves_visibleRange
    (s : RenderState) (st vh : ℚ) (localVersion liveVersion : Nat)
    (hstale : localVersion ≠ liveVersion) :
    (updateVirtualRangeAndRender s st vh localVersion liveVersion).visibleRange
      = s.visibleRange := by
  by_cases hlen : s.markers.length = 0
  · simp only [updateVirtualRangeAndRender]
    rw [if_pos hlen]
  · simp only [updateVirtualRangeAndRender]
    rw [if_neg hlen, if_pos hstale]

/-- Witness for the amended C4 on `staleRenderState` with versions 0 and 1. -/
theorem updateVirtualRangeAndRender_stale_witness :
    (0 : Nat) ≠ 1 ∧
    (updateVirtualRangeAndRender staleRenderState 200 0 0 1).visibleRange
      = staleRenderState.visibleRange :=
  ⟨by decide,
    updateVirtualRangeAndRender_stale_preserves_visibleRange staleRenderState 200 0 0 1
      (by decide)⟩

/- ----- Active-marker anti-flicker (C5) ----- -/

theorem computeActiveByScroll_fold (cs : List (String × ℚ)) :
    ∀ (s : ActiveState),
      (∀ c ∈ cs, c.2 - s.lastActiveChangeTime < minActiveChangeInterval) →
      ((cs.foldl (fun t c => computeActiveByScroll t c.1 c.2) s).activeTurnId
          = s.activeTurnId ∧
        (cs.foldl (fun t c => computeActiveByScroll t c.1 c.2) s).lastActiveChangeTime
          = s.lastActiveChangeTime ∧
        (cs.foldl (fun t c => computeActiveByScroll t c.1 c.2) s).pendingActiveId
          = pendingAfter s.activeTurnId s.pendingActiveId cs) := by
  induction cs with
  | nil => intro s _; exact ⟨rfl, rfl, rfl⟩
  | cons c cs ih =>
    intro s hwin
    simp only [List.foldl_cons]
    by_cases hc : s.activeTurnId = some c.1
    · have hstep : computeActiveByScroll s c.1 c.2 = s := by
        simp [computeActiveByScroll, hc]
      rw [hstep]
      have hrec := ih s (fun x hx => hwin x (by simp [hx]))
      refine ⟨hrec.1, hrec.2.1, ?_⟩
      rw [hrec.2.2]
      simp only [pendingAfter, List.foldl_cons]
      rw [if_neg (by simp [hc])]
    · have hsince : c.2 - s.lastActiveChangeTime < minActiveChangeInterval :=
        hwin c (by simp)
      have hT : (computeActiveByScroll s c.1 c.2).activeTurnId = s.activeTurnId ∧
          (computeActiveByScroll s c.1 c.2).lastActiveChangeTime = s.lastActiveChangeTime ∧
          (computeActiveByScroll s c.1 c.2).pendingActiveId = some c.1 := by
        by_cases ht : s.timerActive <;>
          simp [computeActiveByScroll, hc, hsince, ht]
      have hrec := ih (computeActiveByScroll s c.1 c.2)
        (fun x hx => by rw [hT.2.1]; exact hwin x (by simp [hx]))
      refine ⟨by rw [hrec.1, hT.1], by rw [hrec.2.1, hT.2.1], ?_⟩
      rw [hrec.2.2]
      simp only [pendingAfter, List.foldl_cons]
      rw [hT.1, hT.2.2, if_pos hc]

theorem pendingAfter_eq_or_mem (a : Option String) (cs : List (String × ℚ)) :
    ∀ p0, pendingAfter a p0 cs = p0 ∨
      ∃ c ∈ cs, pendingAfter a p0 cs = some c.1 ∧ a ≠ some c.1 := by
  induction cs with
  | nil => intro p0; left; rfl
  | cons c cs ih =>
    intro p0
    have hstep : pendingAfter a p0 (c :: cs)
        = pendingAfter a (if a ≠ some c.1 then some c.1 else p0) cs := by
      simp only [pendingAfter, List.foldl_cons]
    rw [hstep]
    by_cases hc : a ≠ some c.1
    · rw [if_pos hc]
      rcases ih (some c.1) with h | ⟨d, hd, hd2, hd3⟩
      · right; exact ⟨c, by simp, h, hc⟩
      · right; exact ⟨d, by simp [hd], hd2, hd3⟩
    · rw [if_neg hc]
      rcases ih p0 with h | ⟨d, hd, hd2, hd3⟩
      · left; exact h
      · right; exact ⟨d, by simp [hd], hd2, hd3⟩

/-- C5 amended: within 120ms of the last applied change, candidates equal to
the currently applied id are ignored entirely (they neither clear nor update
the pending slot), and every differing candidate overwrites the pending slot;
when the coalescing timer fires, the id applied is the last differing
candidate observed - not necessarily the most recent resolved candidate - and
when no differing candidate was observed the active id is unchanged. -/
theorem computeActiveByScroll_coalesces (s : ActiveState) (cs : List (String × ℚ)) (tf : ℚ)
    (hclean : s.pendingActiveId = none)
    (hwin : ∀ c ∈ cs, c.2 - s.lastActiveChangeTime < minActiveChangeInterval)
    (hne : ∀ c ∈ cs, c.1 ≠ "") :
    (activeChangeTimerFire
        (cs.foldl (fun t c => computeActiveByScroll t c.1 c.2) s) tf).activeTurnId
      = match pendingAfter s.activeTurnId none cs with
        | some p => some p
        | none => s.activeTurnId := by
  obtain ⟨ha, hl, hp⟩ := computeActiveByScroll_fold cs s hwin
  rw [hclean] at hp
  cases hpa : pendingAfter s.activeTurnId none cs with
  | none =>
    rw [hpa] at hp
    simp [activeChangeTimerFire, hp, ha]
  | some p =>
    rw [hpa] at hp
    rcases pendingAfter_eq_or_mem s.activeTurnId cs none with h | ⟨c, hcmem, hceq, hcne⟩
    · rw [hpa] at h
      exact absurd h (by simp)
    · rw [hpa] at hceq
      have hpc : p = c.1 := by
        injection hceq
      have h1 : p ≠ "" := by rw [hpc]; exact hne c hcmem
      have h2 : some p ≠ s.activeTurnId := by
        rw [hpc]
        exact fun h => hcne h.symm
      simp [activeChangeTimerFire, hp, ha, h1, h2]

/-- C5 counterexample: starting from applied id "A" (last change at time 0),
the candidates resolve to "B" at t = 10 and back to "A" at t = 20, both inside
the 120ms window.  The call resolving to "A" does not touch the pending slot
(the outer guard sees it equal to the applied id), so when the timer fires it
applies "B" - not the most recent resolved candidate "A".  The claim that only
the last candidate observed before the timer fires is ever applied fails. -/
theorem computeActiveByScroll_counterexample :
    (activeChangeTimerFire
      (computeActiveByScroll
        (computeActiveByScroll
          { activeTurnId := some "A", lastActiveChangeTime := 0,
            pendingActiveId := none, timerActive := false } "B" 10) "A" 20) 120).activeTurnId
      = some "B" ∧ ("B" : String) ≠ "A" := by
  constructor
  · norm_num [computeActiveByScroll, activeChangeTimerFire, minActiveChangeInterval]
    decide
  · decide

/-- Witness for the amended C5: from applied id "A", candidates "B" then "C"
arrive inside the window; the timer applies "C", the last differing candidate. -/
theorem computeActiveByScroll_coalesces_witness :
    (exActiveState.pendingActiveId = none ∧
     (∀ c ∈ exCandidates,
        c.2 - exActiveState.lastActiveChangeTime < minActiveChangeInterval) ∧
     (∀ c ∈ exCandidates, c.1 ≠ "")) ∧
    (activeChangeTimerFire
        (exCandidates.foldl (fun t c => computeActiveByScroll t c.1 c.2) exActiveState)
        120).activeTurnId
      = match pendingAfter exActiveState.activeTurnId none exCandidates with
        | some p => some p
        | none => exActiveState.activeTurnId :=
  ⟨⟨rfl, by norm_num [minActiveChangeInterval, exCandidates, exActiveState], by decide⟩,
    computeActiveByScroll_coalesces exActiveState exCandidates 120 rfl
      (by norm_num [minActiveChangeInterval, exCandidates, exActiveState]) (by decide)⟩

/- ----- Tooltip placement (C6, C7) ----- -/

theorem tiersFind_spec (h : ℚ) (hh : (160 : ℚ) ≤ h) :
    ∃ t, tooltipWidthTiers.find? (fun t => t ≤ h) = some t ∧ (160 : ℚ) ≤ t ∧ t ≤ h := by
  by_cases h280 : (280 : ℚ) ≤ h
  · refine ⟨280, ?_, by norm_num, h280⟩
    simp [tooltipWidthTiers, List.find?, h280]
  · by_cases h240 : (240 : ℚ) ≤ h
    · refine ⟨240, ?_, by norm_num, h240⟩
      simp [tooltipWidthTiers, List.find?, h280, h240]
    · by_cases h200 : (200 : ℚ) ≤ h
      · refine ⟨200, ?_, by norm_num, h200⟩
        simp [tooltipWidthTiers, List.find?, h280, h240, h200]
      · refine ⟨160, ?_, le_rfl, hh⟩
        simp [tooltipWidthTiers, List.find?, h280, h240, h200, hh]

/-- C6 amended: the side chosen by `computePlacementInfo` is the side with
strictly more available room after subtracting the gap budget, and when the
two rooms are exactly equal the chosen side is left (the code tests
`rightAvail > leftAvail`, so a tie falls to the left branch; the retry paths
can never change the side because a tier always fits the hard maximum). -/
theorem computePlacementInfo_side (dotLeft dotRight vw arrowOut baseGap boxGap maxW : ℚ) :
    (computePlacementInfo dotLeft dotRight vw arrowOut baseGap boxGap maxW).1 =
      if leftAvailOf dotLeft arrowOut baseGap boxGap
          < rightAvailOf dotRight vw arrowOut baseGap boxGap then "right" else "left" := by
  by_cases hlr : leftAvailOf dotLeft arrowOut baseGap boxGap
      < rightAvailOf dotRight vw arrowOut baseGap boxGap
  · obtain ⟨t, hfind, ht1, ht2⟩ := tiersFind_spec
      (max 160 (min maxW ((⌊rightAvailOf dotRight vw arrowOut baseGap boxGap⌋ : ℤ) : ℚ)))
      (le_max_left _ _)
    have hdead : ∀ (P : Prop), ¬(t < 160 ∧ P) := fun P h => absurd h.1 (not_lt.mpr ht1)
    have hs : (("right" : String) = "right") = True := by simp
    simp only [computePlacementInfo, if_pos hlr, hs, if_true, hfind, Option.getD_some,
      hdead, if_false, ite_false]
  · obtain ⟨t, hfind, ht1, ht2⟩ := tiersFind_spec
      (max 160 (min maxW ((⌊leftAvailOf dotLeft arrowOut baseGap boxGap⌋ : ℤ) : ℚ)))
      (le_max_left _ _)
    have hdead : ∀ (P : Prop), ¬(t < 160 ∧ P) := fun P h => absurd h.1 (not_lt.mpr ht1)
    have hs : (("left" : String) = "right") = False := by simp
    simp only [computePlacementInfo, if_neg hlr, hs, if_false, ite_false, hfind,
      Option.getD_some, hdead]

/-- C6 counterexample: with `dotLeft = 100`, `dotRight = 110`, `vw = 210` and
the default CSS gap components 6, 12, 8 (gap budget 26), the available room is
66 on both sides - an exact tie - and the code places the tooltip on the LEFT,
not on the right as the claim states. -/
theorem computePlacementInfo_tie_counterexample :
    leftAvailOf 100 6 12 8 = rightAvailOf 110 210 6 12 8 ∧
    (computePlacementInfo 100 110 210 6 12 8 288).1 ≠ "right" ∧
    (computePlacementInfo 100 110 210 6 12 8 288).1 = "left" := by
  norm_num [computePlacementInfo, leftAvailOf, rightAvailOf, tooltipGap, tooltipWidthTiers,
    List.find?]
  decide

theorem computePlacementInfo_width_eq
    (dotLeft dotRight vw arrowOut baseGap boxGap maxW : ℚ) :
    (computePlacementInfo dotLeft dotRight vw arrowOut baseGap boxGap maxW).2
      = max 120 (min ((tooltipWidthTiers.find? (fun t =>
          t ≤ max 160 (min maxW
            ((⌊chosenAvail dotLeft dotRight vw arrowOut baseGap boxGap⌋ : ℤ) : ℚ)))).getD 160)
          maxW) := by
  by_cases hlr : leftAvailOf dotLeft arrowOut baseGap boxGap
      < rightAvailOf dotRight vw arrowOut baseGap boxGap
  · obtain ⟨t, hfind, ht1, ht2⟩ := tiersFind_spec
      (max 160 (min maxW ((⌊rightAvailOf dotRight vw arrowOut baseGap boxGap⌋ : ℤ) : ℚ)))
      (le_max_left _ _)
    have hdead : ∀ (P : Prop), ¬(t < 160 ∧ P) := fun P h => absurd h.1 (not_lt.mpr ht1)
    have hs : (("right" : String) = "right") = True := by simp
    simp only [computePlacementInfo, chosenAvail, if_pos hlr, hs, if_true, hfind,
      Option.getD_some, hdead, if_false, ite_false]
  · obtain ⟨t, hfind, ht1, ht2⟩ := tiersFind_spec
      (max 160 (min maxW ((⌊leftAvailOf dotLeft arrowOut baseGap boxGap⌋ : ℤ) : ℚ)))
      (le_max_left _ _)
    have hdead : ∀ (P : Prop), ¬(t < 160 ∧ P) := fun P h => absurd h.1 (not_lt.mpr ht1)
    have hs : (("left" : String) = "right") = False := by simp
    simp only [computePlacementInfo, chosenAvail, if_neg hlr, hs, if_false, ite_false,
      hfind, Option.getD_some, hdead]

theorem tiersFind_floor_eq (avail maxW : ℚ) (hmax : (280 : ℚ) ≤ maxW)
    (havail : (160 : ℚ) ≤ avail) :
    (tooltipWidthTiers.find? (fun t =>
        t ≤ max 160 (min maxW ((⌊avail⌋ : ℤ) : ℚ)))).getD 160
      = (tooltipWidthTiers.find? (fun t => t ≤ avail)).getD 160 ∧
    (160 : ℚ) ≤ (tooltipWidthTiers.find? (fun t => t ≤ avail)).getD 160 ∧
    (tooltipWidthTiers.find? (fun t => t ≤ avail)).getD 160 ≤ avail := by
  have hfl : ((⌊avail⌋ : ℤ) : ℚ) ≤ avail := Int.floor_le avail
  rcases le_or_lt 280 avail with h280 | h280
  · have hf : (280 : ℚ) ≤ ((⌊avail⌋ : ℤ) : ℚ) := by
      have h1 : (280 : ℤ) ≤ ⌊avail⌋ := Int.le_floor.mpr (by exact_mod_cast h280)
      exact_mod_cast h1
    have hmx : (280 : ℚ) ≤ max 160 (min maxW ((⌊avail⌋ : ℤ) : ℚ)) :=
      le_trans (le_min hmax hf) (le_max_right _ _)
    rw [show (tooltipWidthTiers.find? (fun t =>
          t ≤ max 160 (min maxW ((⌊avail⌋ : ℤ) : ℚ)))) = some 280 by
        simp [tooltipWidthTiers, List.find?, hmx],
      show (tooltipWidthTiers.find? (fun t => t ≤ avail)) = some 280 by
        simp [tooltipWidthTiers, List.find?, h280]]
    exact ⟨rfl, by norm_num, by simpa using h280⟩
  · rcases le_or_lt 240 avail with h240 | h240
    · have hf : (240 : ℚ) ≤ ((⌊avail⌋ : ℤ) : ℚ) := by
        have h1 : (240 : ℤ) ≤ ⌊avail⌋ := Int.le_floor.mpr (by exact_mod_cast h240)
        exact_mod_cast h1
      have hup : ((⌊avail⌋ : ℤ) : ℚ) < 280 := lt_of_le_of_lt hfl h280
      have hmin : min maxW ((⌊avail⌋ : ℤ) : ℚ) = ((⌊avail⌋ : ℤ) : ℚ) :=
        min_eq_right (by linarith)
      have hmx : max 160 (min maxW ((⌊avail⌋ : ℤ) : ℚ)) = ((⌊avail⌋ : ℤ) : ℚ) := by
        rw [hmin]
        exact max_eq_right (by linarith)
      rw [show (tooltipWidthTiers.find? (fun t =>
            t ≤ max 160 (min maxW ((⌊avail⌋ : ℤ) : ℚ)))) = some 240 by
          rw [hmx]
          simp [tooltipWidthTiers, List.find?, not_le.mpr hup, hf],
        show (tooltipWidthTiers.find? (fun t => t ≤ avail)) = some 240 by
          simp [tooltipWidthTiers, List.find?, not_le.mpr h280, h240]]
      exact ⟨rfl, by norm_num, by simpa using h240⟩
    · rcases le_or_lt 200 avail with h200 | h200
      · have hf : (200 : ℚ) ≤ ((⌊avail⌋ : ℤ) : ℚ) := by
          have h1 : (200 : ℤ) ≤ ⌊avail⌋ := Int.le_floor.mpr (by exact_mod_cast h200)
          exact_mod_cast h1
        have hup : ((⌊avail⌋ : ℤ) : ℚ) < 240 := lt_of_le_of_lt hfl h240
        have hmin : min maxW ((⌊avail⌋ : ℤ) : ℚ) = ((⌊avail⌋ : ℤ) : ℚ) :=
          min_eq_right (by linarith)
        have hmx : max 160 (min maxW ((⌊avail⌋ : ℤ) : ℚ)) = ((⌊avail⌋ : ℤ) : ℚ) := by
          rw [hmin]
          exact max_eq_right (by linarith)
        rw [show (tooltipWidthTiers.find? (fun t =>
              t ≤ max 160 (min maxW ((⌊avail⌋ : ℤ) : ℚ)))) = some 200 by
            rw [hmx]
            simp [tooltipWidthTiers, List.find?, not_le.mpr (by linarith : ((⌊avail⌋ : ℤ) : ℚ) < 280),
              not_le.mpr hup, hf],
          show (tooltipWidthTiers.find? (fun t => t ≤ avail)) = some 200 by
            simp [tooltipWidthTiers, List.find?, not_le.mpr h280, not_le.mpr h240, h200]]
        exact ⟨rfl, by norm_num, by simpa using h200⟩
      · have hf : (160 : ℚ) ≤ ((⌊avail⌋ : ℤ) : ℚ) := by
          have h1 : (160 : ℤ) ≤ ⌊avail⌋ := Int.le_floor.mpr (by exact_mod_cast havail)
          exact_mod_cast h1
        have hup : ((⌊avail⌋ : ℤ) : ℚ) < 200 := lt_of_le_of_lt hfl h200
        have hmin : min maxW ((⌊avail⌋ : ℤ) : ℚ) = ((⌊avail⌋ : ℤ) : ℚ) :=
          min_eq_right (by linarith)
        have hmx : max 160 (min maxW ((⌊avail⌋ : ℤ) : ℚ)) = ((⌊avail⌋ : ℤ) : ℚ) := by
          rw [hmin]
          exact max_eq_right (by linarith)
        rw [show (tooltipWidthTiers.find? (fun t =>
              t ≤ max 160 (min maxW ((⌊avail⌋ : ℤ) : ℚ)))) = some 160 by
            rw [hmx]
            simp [tooltipWidthTiers, List.find?, not_le.mpr (by linarith : ((⌊avail⌋ : ℤ) : ℚ) < 280),
              not_le.mpr (by linarith : ((⌊avail⌋ : ℤ) : ℚ) < 240), not_le.mpr hup, hf],
          show (tooltipWidthTiers.find? (fun t => t ≤ avail)) = some 160 by
            simp [tooltipWidthTiers, List.find?, not_le.mpr h280, not_le.mpr h240,
              not_le.mpr h200, havail]]
        exact ⟨rfl, by norm_num, by simpa using havail⟩

/-- C7: under the shipped width cap (the CSS variable defaults to 288; any cap
at least 280), the width returned by `computePlacementInfo` is at least 120
always, and whenever some tier fits the available room on the chosen side, the
width is the largest tier from [280, 240, 200, 160] that fits that room,
clamped to the hard minimum 120 and the configured maximum, and never exceeds
that room. -/
theorem computePlacementInfo_width (dotLeft dotRight vw arrowOut baseGap boxGap maxW : ℚ)
    (hmax : (280 : ℚ) ≤ maxW) :
    (120 : ℚ) ≤ (computePlacementInfo dotLeft dotRight vw arrowOut baseGap boxGap maxW).2 ∧
    ((160 : ℚ) ≤ chosenAvail dotLeft dotRight vw arrowOut baseGap boxGap →
      (computePlacementInfo dotLeft dotRight vw arrowOut baseGap boxGap maxW).2
        = max 120 (min ((tooltipWidthTiers.find?
            (fun t => t ≤ chosenAvail dotLeft dotRight vw arrowOut baseGap boxGap)).getD 160)
            maxW) ∧
      (computePlacementInfo dotLeft dotRight vw arrowOut baseGap boxGap maxW).2
        ≤ chosenAvail dotLeft dotRight vw arrowOut baseGap boxGap) := by
  rw [computePlacementInfo_width_eq]
  constructor
  · exact le_max_left _ _
  · intro havail
    obtain ⟨heq, h160, hle⟩ := tiersFind_floor_eq
      (chosenAvail dotLeft dotRight vw arrowOut baseGap boxGap) maxW hmax havail
    rw [heq]
    refine ⟨rfl, ?_⟩
    have hminle : min ((tooltipWidthTiers.find?
        (fun t => t ≤ chosenAvail dotLeft dotRight vw arrowOut baseGap boxGap)).getD 160) maxW
        ≤ chosenAvail dotLeft dotRight vw arrowOut baseGap boxGap :=
      le_trans (min_le_left _ _) hle
    have h120 : (120 : ℚ) ≤ min ((tooltipWidthTiers.find?
        (fun t => t ≤ chosenAvail dotLeft dotRight vw arrowOut baseGap boxGap)).getD 160) maxW :=
      le_min (by linarith) (by linarith)
    rw [max_eq_right h120]
    exact hminle

/-- Witness for C7 at `dotLeft = 400`, `dotRight = 410`, `vw = 1000`, CSS gap
components 6, 12, 8 and `maxW = 288` (the default). -/
theorem computePlacementInfo_width_witness :
    (280 : ℚ) ≤ 288 ∧
    ((120 : ℚ) ≤ (computePlacementInfo 400 410 1000 6 12 8 288).2 ∧
    ((160 : ℚ) ≤ chosenAvail 400 410 1000 6 12 8 →
      (computePlacementInfo 400 410 1000 6 12 8 288).2
        = max 120 (min ((tooltipWidthTiers.find?
            (fun t => t ≤ chosenAvail 400 410 1000 6 12 8)).getD 160) 288) ∧
      (computePlacementInfo 400 410 1000 6 12 8 288).2 ≤ chosenAvail 400 410 1000 6 12 8)) :=
  ⟨by norm_num, computePlacementInfo_width 400 410 1000 6 12 8 288 (by norm_num)⟩
